import Mathlib

/-!
Verification development for the little-key-value-db repository: a shallow
embedding of its MVCC scanner (src/storage/mvcc_scanner.rs), its lock table
and executor contracts, its database facade clock (src/db/db.rs) and its
latch-manager interval B-tree (src/latch_manager/latch_interval_btree.rs),
together with theorems settling the specified properties.
-/

namespace KVDB

/-- Hybrid logical clock timestamp, a pair of wall time and logical time
with lexicographic total order. The file src/hlc/timestamp.rs is not under
src/, so this is modelled from the spec: an HLC is a pair
(wall, logical) with total order, supporting next_logical and advance_by. -/
structure Timestamp where
  wall_time : Nat
  logical_time : Nat
deriving DecidableEq, Repr

/-- Lexicographic strict order on HLC timestamps. -/
def tsLtB (a b : Timestamp) : Bool :=
  decide (a.wall_time < b.wall_time) ||
    (decide (a.wall_time = b.wall_time) && decide (a.logical_time < b.logical_time))

/-- Lexicographic non-strict order on HLC timestamps. -/
def tsLeB (a b : Timestamp) : Bool :=
  tsLtB a b || decide (a = b)

/-- Modelled from the spec: next_logical_timestamp increments the logical
component of the HLC pair. -/
def Timestamp.next_logical_timestamp (t : Timestamp) : Timestamp :=
  { wall_time := t.wall_time, logical_time := t.logical_time + 1 }

theorem tsLtB_irrefl (a : Timestamp) : tsLtB a a = false := by
  simp [tsLtB]

theorem tsLtB_asymm {a b : Timestamp} (h : tsLtB a b = true) : tsLtB b a = false := by
  cases a; cases b
  simp only [tsLtB, Bool.or_eq_true, Bool.and_eq_true, decide_eq_true_eq] at h ⊢
  simp only [Bool.or_eq_false_iff, Bool.and_eq_false_iff, decide_eq_false_iff_not]
  omega

theorem tsLtB_trans {a b c : Timestamp} (h1 : tsLtB a b = true) (h2 : tsLtB b c = true) :
    tsLtB a c = true := by
  cases a; cases b; cases c
  simp only [tsLtB, Bool.or_eq_true, Bool.and_eq_true, decide_eq_true_eq] at h1 h2 ⊢
  omega

theorem tsLtB_total {a b : Timestamp} (h1 : tsLtB a b = false) (h2 : tsLtB b a = false) :
    a = b := by
  cases a; cases b
  simp only [tsLtB, Bool.or_eq_false_iff, Bool.and_eq_false_iff,
    decide_eq_false_iff_not] at h1 h2
  simp only [Timestamp.mk.injEq]
  omega

theorem tsLeB_eq_not_tsLtB (a b : Timestamp) : tsLeB a b = !tsLtB b a := by
  cases h : tsLtB b a
  · cases h2 : tsLtB a b
    · have hab := tsLtB_total h2 h
      simp [tsLeB, h2, hab]
    · simp [tsLeB, h2]
  · have h2 := tsLtB_asymm h
    simp only [Bool.not_true, tsLeB, h2, Bool.false_or, decide_eq_false_iff_not]
    intro hab
    subst hab
    rw [tsLtB_irrefl] at h
    exact Bool.false_ne_true h

/-- Keys are opaque byte sequences ordered lexicographically (spec section 3). -/
abbrev Key : Type := List Nat

/-- Values are opaque bytes. -/
abbrev Value : Type := List Nat

/-- Lexicographic strict order on keys. -/
def keyLtB : Key → Key → Bool
  | _, [] => false
  | [], _ :: _ => true
  | a :: as, b :: bs =>
      decide (a < b) || (decide (a = b) && keyLtB as bs)

theorem keyLtB_irrefl (a : Key) : keyLtB a a = false := by
  induction a with
  | nil => rfl
  | cons x xs ih => simp [keyLtB, ih]

theorem keyLtB_asymm : ∀ {a b : Key}, keyLtB a b = true → keyLtB b a = false
  | _, [], h => by simp [keyLtB] at h
  | [], _ :: _, _ => by simp [keyLtB]
  | a :: as, b :: bs, h => by
      simp only [keyLtB, Bool.or_eq_true, Bool.and_eq_true, decide_eq_true_eq] at h ⊢
      simp only [Bool.or_eq_false_iff, Bool.and_eq_false_iff, decide_eq_false_iff_not]
      rcases h with h | ⟨rfl, h⟩
      · constructor
        · omega
        · left; omega
      · exact ⟨Nat.lt_irrefl _, Or.inr (keyLtB_asymm h)⟩

theorem keyLtB_trans : ∀ {a b c : Key},
    keyLtB a b = true → keyLtB b c = true → keyLtB a c = true
  | _, _, [], _, h2 => by simp [keyLtB] at h2
  | _, [], _, h1, _ => by simp [keyLtB] at h1
  | [], _ :: _, _ :: _, _, _ => by simp [keyLtB]
  | a :: as, b :: bs, c :: cs, h1, h2 => by
      simp only [keyLtB, Bool.or_eq_true, Bool.and_eq_true, decide_eq_true_eq] at h1 h2 ⊢
      rcases h1 with h1 | ⟨rfl, h1⟩
      · rcases h2 with h2 | ⟨rfl, h2⟩
        · left; omega
        · left; exact h1
      · rcases h2 with h2 | ⟨rfl, h2⟩
        · left; exact h2
        · exact Or.inr ⟨rfl, keyLtB_trans h1 h2⟩

theorem keyLtB_total : ∀ {a b : Key},
    keyLtB a b = false → keyLtB b a = false → a = b
  | [], [], _, _ => rfl
  | [], _ :: _, h1, _ => by simp [keyLtB] at h1
  | _ :: _, [], _, h2 => by simp [keyLtB] at h2
  | a :: as, b :: bs, h1, h2 => by
      simp only [keyLtB, Bool.or_eq_false_iff, Bool.and_eq_false_iff,
        decide_eq_false_iff_not] at h1 h2
      obtain ⟨hab, h1r⟩ := h1
      obtain ⟨hba, h2r⟩ := h2
      have habEq : a = b := by omega
      subst habEq
      rcases h1r with h | h1r
      · omega
      · rcases h2r with h | h2r
        · omega
        · rw [keyLtB_total h1r h2r]

/-- Transaction metadata, from src/storage/txn.rs: a txn id (UUID, modelled
as a Nat) and the write timestamp. -/
structure TxnMetadata where
  txn_id : Nat
  write_timestamp : Timestamp
deriving DecidableEq, Repr

/-- A write intent envelope, from src/storage/txn.rs. -/
structure TxnIntent where
  txn_meta : TxnMetadata
  key : Key
deriving DecidableEq, Repr

/-- The value stored under an intent key, from src/storage/txn.rs. -/
structure UncommittedValue where
  value : Value
  txn_metadata : TxnMetadata
deriving DecidableEq, Repr

/-- In-memory transaction handle, from src/storage/txn.rs. -/
structure Txn where
  txn_id : Nat
  metadata : TxnMetadata
  read_timestamp : Timestamp
deriving DecidableEq, Repr

/-- The kind of an MVCC storage key: either the distinguished intent key of a
user key, or a versioned key carrying an HLC timestamp. The file
src/storage/mvcc_key.rs is not under src/; modelled from the spec:
an intent key for user_key sorts strictly before every versioned key with
that user_key, and versioned keys sort by (key ascending, timestamp
descending). -/
inductive MKind where
  | intent : MKind
  | version : Timestamp → MKind
deriving DecidableEq, Repr

/-- An MVCC key: user key plus kind, mirroring MVCCKey of the source where
is_intent_key distinguishes the intent key of a user key. -/
structure MVCCKey where
  key : Key
  kind : MKind
deriving DecidableEq, Repr

/-- Mirrors MVCCKey::is_intent_key of the source. -/
def MVCCKey.is_intent_key (k : MVCCKey) : Bool :=
  match k.kind with
  | .intent => true
  | .version _ => false

/-- The timestamp field of a versioned MVCC key (only read by the scanner on
non-intent keys; an intent key yields a dummy zero timestamp). -/
def MVCCKey.timestamp (k : MVCCKey) : Timestamp :=
  match k.kind with
  | .intent => ⟨0, 0⟩
  | .version ts => ts

/-- Mirrors create_intent_key of src/storage/mvcc_key.rs (missing from src/,
modelled from the spec): the intent key of a user key. -/
def create_intent_key (k : Key) : MVCCKey :=
  ⟨k, .intent⟩

/-- Strict order of kinds for one user key: the intent key first, then the
versioned keys with larger timestamps first. -/
def kindLtB : MKind → MKind → Bool
  | .intent, .intent => false
  | .intent, .version _ => true
  | .version _, .intent => false
  | .version t1, .version t2 => tsLtB t2 t1

/-- Comparison of MVCC keys: key ascending, then kind order (spec section 3). -/
def mvccLtB (a b : MVCCKey) : Bool :=
  keyLtB a.key b.key || (decide (a.key = b.key) && kindLtB a.kind b.kind)

theorem kindLtB_irrefl (a : MKind) : kindLtB a a = false := by
  cases a <;> simp [kindLtB, tsLtB_irrefl]

theorem kindLtB_total {a b : MKind} (h1 : kindLtB a b = false) (h2 : kindLtB b a = false) :
    a = b := by
  cases a <;> cases b <;> simp_all [kindLtB]
  exact tsLtB_total h2 h1

theorem mvccLtB_irrefl (a : MVCCKey) : mvccLtB a a = false := by
  simp [mvccLtB, keyLtB_irrefl, kindLtB_irrefl]

theorem mvccLtB_key_le {a b : MVCCKey} (h : mvccLtB a b = true) :
    keyLtB b.key a.key = false := by
  simp only [mvccLtB, Bool.or_eq_true, Bool.and_eq_true, decide_eq_true_eq] at h
  rcases h with h | ⟨h, _⟩
  · exact keyLtB_asymm h
  · rw [h, keyLtB_irrefl]

theorem mvccLtB_of_keyLtB {a b : MVCCKey} (h : keyLtB a.key b.key = true) :
    mvccLtB a b = true := by
  simp [mvccLtB, h]

/-- A stored value in the underlying KV store: raw user bytes at versioned
keys, or an encoded UncommittedValue at intent keys (spec section 6; the
self-describing serialization is modelled by this sum type). -/
inductive StoredValue where
  | raw : Value → StoredValue
  | meta : UncommittedValue → StoredValue
deriving DecidableEq, Repr

/-- One entry of the ordered KV store. -/
abbrev StoreEntry : Type := MVCCKey × StoredValue

/-- The MVCC iterator, an ordered cursor over the KV store. The file
src/storage/mvcc_iterator.rs is not under src/; modelled from the spec:
seek_ge positions at the least MVCCKey at or above the target, next
advances, valid / current_key / current_value read the position. The store
is a list sorted by mvccLtB and the position is kept as the remaining
suffix, so seek_ge drops the entries strictly below the target. -/
structure MVCCIterator where
  full : List StoreEntry
  curs : List StoreEntry
deriving DecidableEq, Repr

/-- seek_ge repositions the cursor at the least entry at or above target.
Returns the repositioned iterator; validity is read off with valid. -/
def MVCCIterator.seek_ge (it : MVCCIterator) (target : MVCCKey) : MVCCIterator :=
  { it with curs := it.full.dropWhile (fun e => mvccLtB e.1 target) }

def MVCCIterator.valid (it : MVCCIterator) : Bool :=
  !it.curs.isEmpty

/-- next advances the cursor by one entry. -/
def MVCCIterator.nextEntry (it : MVCCIterator) : MVCCIterator :=
  { it with curs := it.curs.tail }

def MVCCIterator.current_key (it : MVCCIterator) : MVCCKey :=
  (it.curs.headD (⟨[], .intent⟩, .raw [])).1

/-- current_value as raw bytes; applied by the scanner only at versioned
keys, where the stored value is raw (an intent entry yields dummy bytes). -/
def MVCCIterator.current_value (it : MVCCIterator) : Value :=
  match (it.curs.headD (⟨[], .intent⟩, .raw [])).2 with
  | .raw v => v
  | .meta _ => []

/-- current_value_serialized deserialized as an UncommittedValue; applied by
the scanner only at intent keys, where the stored value is an encoded
UncommittedValue (a raw entry yields a dummy). -/
def MVCCIterator.current_value_serialized (it : MVCCIterator) : UncommittedValue :=
  match (it.curs.headD (⟨[], .intent⟩, .raw [])).2 with
  | .raw _ => ⟨[], ⟨0, ⟨0, 0⟩⟩⟩
  | .meta uv => uv

/-- The MVCC scanner state, from src/storage/mvcc_scanner.rs. -/
structure MVCCScanner where
  it : MVCCIterator
  txn : Option Txn
  start_key : Key
  end_key : Option Key
  timestamp : Timestamp
  found_intents : List (TxnIntent × Value)
  max_records_count : Nat
  results : List (MVCCKey × Value)
deriving DecidableEq, Repr

/-- Mirrors MVCCScanner::new of the source. -/
def MVCCScanner.new (it : MVCCIterator) (start_key : Key) (end_key : Option Key)
    (timestamp : Timestamp) (max_records_count : Nat) (transaction : Option Txn) :
    MVCCScanner :=
  { it := it, start_key := start_key, end_key := end_key, timestamp := timestamp,
    found_intents := [], results := [], max_records_count := max_records_count,
    txn := transaction }

/-- Mirrors MVCCScanner::seek_older_version: seek to the first version of
key at or below the provided timestamp and add it to the result set when it
still belongs to key; returns whether a record was added. -/
def MVCCScanner.seek_older_version (s : MVCCScanner) (key : Key) (timestamp : Timestamp) :
    Bool × MVCCScanner :=
  let mvcc_key : MVCCKey := ⟨key, .version timestamp⟩
  let it2 := s.it.seek_ge mvcc_key
  let s2 := { s with it := it2 }
  if it2.valid then
    let current_key := it2.current_key
    if current_key.key = key then
      (true, { s2 with results := s2.results ++ [(current_key, it2.current_value)] })
    else
      (false, s2)
  else
    (false, s2)

/-- Mirrors MVCCScanner::get_current_key: at an intent key, record the
intent with its uncommitted value in found_intents (the source pushes the
same intent in the same-txn branch, the other-txn branch and the no-txn
branch alike); at a versioned key, add it when the scanner timestamp is at
or above it, otherwise seek to an older version. -/
def MVCCScanner.get_current_key (s : MVCCScanner) : Bool × MVCCScanner :=
  let current_key := s.it.current_key
  if current_key.is_intent_key then
    let current_value := s.it.current_value_serialized
    match s.txn with
    | some scanner_transaction =>
        if current_value.txn_metadata.txn_id = scanner_transaction.txn_id then
          (false, { s with found_intents := s.found_intents ++
            [(⟨current_value.txn_metadata, current_key.key⟩, current_value.value)] })
        else
          (false, { s with found_intents := s.found_intents ++
            [(⟨current_value.txn_metadata, current_key.key⟩, current_value.value)] })
    | none =>
        (false, { s with found_intents := s.found_intents ++
          [(⟨current_value.txn_metadata, current_key.key⟩, current_value.value)] })
  else
    let key_timestamp := current_key.timestamp
    if tsLtB key_timestamp s.timestamp then
      (true, { s with results := s.results ++ [(s.it.current_key, s.it.current_value)] })
    else if tsLtB s.timestamp key_timestamp then
      s.seek_older_version current_key.key s.timestamp
    else
      (true, { s with results := s.results ++ [(s.it.current_key, s.it.current_value)] })

/-- Mirrors MVCCScanner::advance_to_next_key: repeatedly call next until the
user key changes or the iterator becomes invalid. The source loop, which
first advances once and then keeps advancing while the user key is
unchanged, is embedded as dropWhile over the tail of the cursor. -/
def MVCCScanner.advance_to_next_key (s : MVCCScanner) : MVCCScanner :=
  if !s.it.valid then s
  else
    let current_key := s.it.current_key
    { s with it := { s.it with
        curs := s.it.curs.tail.dropWhile (fun e => decide (e.1.key = current_key.key)) } }

/-- The scan loop body of MVCCScanner::scan, fuelled: stop when the result
set is full, the iterator is invalid, or the current user key is past
end_key (past start_key when no end_key is given); otherwise process the
current key and advance to the next user key. -/
def MVCCScanner.scanLoop : Nat → MVCCScanner → MVCCScanner
  | 0, s => s
  | fuel + 1, s =>
    if s.results.length = s.max_records_count then s
    else if !s.it.valid then s
    else
      let stop :=
        match s.end_key with
        | some ek => keyLtB ek s.it.current_key.key
        | none => keyLtB s.start_key s.it.current_key.key
      if stop then s
      else MVCCScanner.scanLoop fuel ((s.get_current_key).2.advance_to_next_key)

/-- Mirrors MVCCScanner::scan: seek to the intent key of start_key, then
loop. The source while loop is fuelled by the store size, which suffices
for every sorted store. -/
def MVCCScanner.scan (s : MVCCScanner) : MVCCScanner :=
  let start_base := create_intent_key s.start_key
  MVCCScanner.scanLoop (s.it.full.length + 1) { s with it := s.it.seek_ge start_base }

/-- Raw-bytes view of a stored value, as current_value reads it. -/
def StoredValue.asRaw : StoredValue → Value
  | .raw v => v
  | .meta _ => []

/-- UncommittedValue view of a stored value, as current_value_serialized
reads it. -/
def StoredValue.asUncommitted : StoredValue → UncommittedValue
  | .raw _ => ⟨[], ⟨0, ⟨0, 0⟩⟩⟩
  | .meta uv => uv

/-- Predicate selecting entries of one user key. -/
def sameKeyB (k : Key) (e : StoreEntry) : Bool :=
  decide (e.1.key = k)

/-- Sortedness of the KV store under the MVCC key order, the ordered
iteration contract of the underlying store (spec section 6). -/
def sortedStore (l : List StoreEntry) : Prop :=
  l.Pairwise (fun a b => mvccLtB a.1 b.1 = true)

/-- Specification of one scan, written from the spec reading of section 4.1
as amended by the observed iterator interaction: the store suffix is
processed user key by user key; a key whose group starts with an intent
contributes its intent and no result; a key whose newest version is at or
below the read timestamp contributes that version; otherwise the first
(that is, under descending version order the greatest) version at or below
the read timestamp contributes, and when no version of the key is visible
the immediately following user key is skipped entirely. Processing stops at
the result cap and at the first key past the bound. -/
def scanSpec (R : Timestamp) (bound : Key) :
    Nat → List StoreEntry → List (MVCCKey × Value) × List (TxnIntent × Value)
  | _, [] => ([], [])
  | rem, e :: t =>
    if rem = 0 then ([], [])
    else if keyLtB bound e.1.key then ([], [])
    else
      match e.1.kind with
      | .intent =>
          let uv := e.2.asUncommitted
          let rest := scanSpec R bound rem (t.dropWhile (sameKeyB e.1.key))
          (rest.1, (⟨uv.txn_metadata, e.1.key⟩, uv.value) :: rest.2)
      | .version ts0 =>
          if tsLeB ts0 R then
            let rest := scanSpec R bound (rem - 1) (t.dropWhile (sameKeyB e.1.key))
            ((e.1, e.2.asRaw) :: rest.1, rest.2)
          else
            match (t.takeWhile (sameKeyB e.1.key)).find?
                (fun x => tsLeB x.1.timestamp R) with
            | some x =>
                let rest := scanSpec R bound (rem - 1) (t.dropWhile (sameKeyB e.1.key))
                ((x.1, x.2.asRaw) :: rest.1, rest.2)
            | none =>
                match hdw : t.dropWhile (sameKeyB e.1.key) with
                | [] => ([], [])
                | f :: t2 => scanSpec R bound rem (t2.dropWhile (sameKeyB f.1.key))
termination_by rem l => l.length
decreasing_by
  all_goals simp_wf
  all_goals try exact Nat.lt_succ_of_le (List.dropWhile_sublist _).length_le
  have h2 : (f :: t2).length ≤ t.length := by
    rw [← hdw]
    exact (List.dropWhile_sublist _).length_le
  have h1 : (List.dropWhile (sameKeyB f.1.key) t2).length ≤ t2.length :=
    (List.dropWhile_sublist _).length_le
  simp only [List.length_cons] at h2
  omega

theorem keyLtB_lt_of_lt_of_nlt {a b c : Key}
    (h1 : keyLtB a b = true) (h2 : keyLtB c b = false) : keyLtB a c = true := by
  cases hac : keyLtB a c
  · cases hca : keyLtB c a
    · have := keyLtB_total hac hca
      subst this
      rw [h1] at h2
      exact h2.symm
    · rw [keyLtB_trans hca h1] at h2
      exact h2.symm
  · rfl

theorem mvccLtB_keyLt_of_ne {a b : MVCCKey} (h : mvccLtB a b = true)
    (hne : a.key ≠ b.key) : keyLtB a.key b.key = true := by
  simp only [mvccLtB, Bool.or_eq_true, Bool.and_eq_true, decide_eq_true_eq] at h
  rcases h with h | ⟨h, _⟩
  · exact h
  · exact absurd h hne

theorem dropWhile_congr_mem {α : Type} (p q : α → Bool) :
    ∀ (l : List α), (∀ x ∈ l, p x = q x) → l.dropWhile p = l.dropWhile q
  | [], _ => rfl
  | a :: t, h => by
      have ha := h a (List.mem_cons_self a t)
      simp only [List.dropWhile_cons, ha]
      cases hq : q a
      · simp [hq]
      · simp only [hq, if_true]
        exact dropWhile_congr_mem p q t (fun x hx => h x (List.mem_cons_of_mem a hx))

theorem find?_eq_head?_dropWhile_not {α : Type} (q : α → Bool) :
    ∀ (l : List α), l.find? q = (l.dropWhile (fun x => !q x)).head?
  | [] => rfl
  | a :: t => by
      cases hq : q a
      · rw [List.find?_cons_of_neg _ (by simp [hq])]
        rw [List.dropWhile_cons_of_pos (by simp [hq])]
        exact find?_eq_head?_dropWhile_not q t
      · rw [List.find?_cons_of_pos _ hq]
        rw [List.dropWhile_cons_of_neg (by simp [hq])]
        rfl

theorem dropWhile_append_stop {α : Type} {p : α → Bool} {a b : List α}
    (h : a.dropWhile p ≠ []) : (a ++ b).dropWhile p = a.dropWhile p ++ b := by
  rw [List.dropWhile_append, if_neg]
  simp only [List.isEmpty_iff]
  exact h

theorem sortedStore_sublist {l l2 : List StoreEntry} (h : sortedStore l)
    (hs : l2.Sublist l) : sortedStore l2 :=
  List.Pairwise.sublist hs h

/-- Every entry of the user-key group following a group head has that key. -/
theorem group_keys {k : Key} {t : List StoreEntry} :
    ∀ x ∈ t.takeWhile (sameKeyB k), x.1.key = k := by
  intro x hx
  have := List.mem_takeWhile_imp hx
  simpa [sameKeyB] using this

/-- In a sorted store the entries after the group of a head entry have
strictly larger user keys. -/
theorem group_after {e : StoreEntry} {t : List StoreEntry}
    (hsort : sortedStore (e :: t)) :
    ∀ f ∈ t.dropWhile (sameKeyB e.1.key), keyLtB e.1.key f.1.key = true := by
  induction t with
  | nil => intro f hf; simp [List.dropWhile] at hf
  | cons y t2 ih =>
      intro f hf
      rcases List.pairwise_cons.mp hsort with ⟨he, hyt⟩
      by_cases hy : sameKeyB e.1.key y = true
      · rw [List.dropWhile_cons_of_pos hy] at hf
        have hsort2 : sortedStore (e :: t2) := by
          refine List.pairwise_cons.mpr ⟨?_, (List.pairwise_cons.mp hyt).2⟩
          intro z hz
          exact he z (List.mem_cons_of_mem y hz)
        exact ih hsort2 f hf
      · rw [List.dropWhile_cons_of_neg hy] at hf
        have hyk : y.1.key ≠ e.1.key := by
          simpa [sameKeyB] using hy
        have hey : keyLtB e.1.key y.1.key = true :=
          mvccLtB_keyLt_of_ne (he y (List.mem_cons_self y t2)) (fun hc => hyk hc.symm)
        rcases List.mem_cons.mp hf with rfl | hf2
        · exact hey
        · have hyf : keyLtB f.1.key y.1.key = false :=
            mvccLtB_key_le ((List.pairwise_cons.mp hyt).1 f hf2)
          exact keyLtB_lt_of_lt_of_nlt hey hyf

/-- In a sorted store every group entry below a versioned group head is a
version with strictly smaller timestamp. -/
theorem group_versions {e : StoreEntry} {t : List StoreEntry} {ts0 : Timestamp}
    (hsort : sortedStore (e :: t)) (hv : e.1.kind = .version ts0) :
    ∀ x ∈ t.takeWhile (sameKeyB e.1.key),
      ∃ tsx, x.1.kind = .version tsx ∧ tsLtB tsx ts0 = true := by
  intro x hx
  have hxk : x.1.key = e.1.key := group_keys x hx
  have hxt : x ∈ t := (List.takeWhile_sublist _).subset hx
  have hex : mvccLtB e.1 x.1 = true := (List.pairwise_cons.mp hsort).1 x hxt
  have hkind : kindLtB e.1.kind x.1.kind = true := by
    simp only [mvccLtB, Bool.or_eq_true, Bool.and_eq_true, decide_eq_true_eq] at hex
    rcases hex with hlt | ⟨_, hk⟩
    · rw [hxk, keyLtB_irrefl] at hlt
      exact absurd hlt (by simp)
    · exact hk
  rw [hv] at hkind
  cases hxkind : x.1.kind with
  | intent => rw [hxkind] at hkind; simp [kindLtB] at hkind
  | version tsx =>
      rw [hxkind] at hkind
      exact ⟨tsx, rfl, hkind⟩

/-- At an intent key, get_current_key records the intent in found_intents
independently of the scanner transaction and does not touch the results. -/
theorem get_current_key_intent (s : MVCCScanner) (k : Key) (sv : StoredValue)
    (t : List StoreEntry) (h : s.it.curs = (⟨k, .intent⟩, sv) :: t) :
    s.get_current_key = (false, { s with found_intents := s.found_intents ++
      [(⟨sv.asUncommitted.txn_metadata, k⟩, sv.asUncommitted.value)] }) := by
  have hk : s.it.current_key = ⟨k, .intent⟩ := by
    simp [MVCCIterator.current_key, h]
  have hv : s.it.current_value_serialized = sv.asUncommitted := by
    simp only [MVCCIterator.current_value_serialized, h, List.headD_cons]
    cases sv <;> rfl
  unfold MVCCScanner.get_current_key
  rw [hk, hv]
  simp only [MVCCKey.is_intent_key, if_true]
  cases s.txn with
  | none => rfl
  | some tx =>
      by_cases hid : sv.asUncommitted.txn_metadata.txn_id = tx.txn_id
      · simp [hid]
      · simp [hid]

/-- At a versioned key whose timestamp is at or below the scanner timestamp,
get_current_key appends the current entry to the results. -/
theorem get_current_key_visible (s : MVCCScanner) (k : Key) (ts0 : Timestamp)
    (sv : StoredValue) (t : List StoreEntry)
    (h : s.it.curs = (⟨k, .version ts0⟩, sv) :: t)
    (hvis : tsLtB s.timestamp ts0 = false) :
    s.get_current_key = (true, { s with results := s.results ++
      [(⟨k, .version ts0⟩, sv.asRaw)] }) := by
  have hk : s.it.current_key = ⟨k, .version ts0⟩ := by
    simp [MVCCIterator.current_key, h]
  have hv : s.it.current_value = sv.asRaw := by
    simp only [MVCCIterator.current_value, h, List.headD_cons]
    cases sv <;> rfl
  unfold MVCCScanner.get_current_key
  rw [hk, hv]
  simp only [MVCCKey.is_intent_key, MVCCKey.timestamp]
  rw [if_neg (by simp)]
  by_cases h1 : tsLtB ts0 s.timestamp = true
  · rw [if_pos h1]
  · rw [if_neg h1, if_neg (by simp [hvis])]

/-- At a versioned key whose timestamp is above the scanner timestamp,
get_current_key defers to seek_older_version. -/
theorem get_current_key_invisible (s : MVCCScanner) (k : Key) (ts0 : Timestamp)
    (sv : StoredValue) (t : List StoreEntry)
    (h : s.it.curs = (⟨k, .version ts0⟩, sv) :: t)
    (hvis : tsLtB s.timestamp ts0 = true) :
    s.get_current_key = s.seek_older_version k s.timestamp := by
  have hk : s.it.current_key = ⟨k, .version ts0⟩ := by
    simp [MVCCIterator.current_key, h]
  have h1 : tsLtB ts0 s.timestamp = false := tsLtB_asymm hvis
  unfold MVCCScanner.get_current_key
  rw [hk]
  simp only [MVCCKey.is_intent_key, MVCCKey.timestamp]
  rw [if_neg (by simp), if_neg (by simp [h1]), if_pos hvis]

/-- advance_to_next_key from a nonempty cursor drops the rest of the current
user-key group. -/
theorem advance_to_next_key_cons (s : MVCCScanner) (e : StoreEntry)
    (t : List StoreEntry) (h : s.it.curs = e :: t) :
    s.advance_to_next_key =
      { s with it := { s.it with curs := t.dropWhile (sameKeyB e.1.key) } } := by
  have hval : s.it.valid = true := by
    simp [MVCCIterator.valid, h]
  have hk : s.it.current_key = e.1 := by
    simp [MVCCIterator.current_key, h]
  unfold MVCCScanner.advance_to_next_key
  rw [hval, if_neg (by simp)]
  simp only [hk, h, List.tail_cons]
  rfl

/-- advance_to_next_key on an invalid iterator is the identity. -/
theorem advance_to_next_key_nil (s : MVCCScanner) (h : s.it.curs = []) :
    s.advance_to_next_key = s := by
  have hval : s.it.valid = false := by
    simp [MVCCIterator.valid, h]
  unfold MVCCScanner.advance_to_next_key
  rw [hval]
  simp

theorem scanLoop_cap (fuel : Nat) (s : MVCCScanner)
    (h : s.results.length = s.max_records_count) :
    MVCCScanner.scanLoop (fuel + 1) s = s := by
  unfold MVCCScanner.scanLoop
  rw [if_pos h]

theorem scanLoop_invalid (fuel : Nat) (s : MVCCScanner) (h : s.it.curs = []) :
    MVCCScanner.scanLoop (fuel + 1) s = s := by
  have hval : s.it.valid = false := by simp [MVCCIterator.valid, h]
  unfold MVCCScanner.scanLoop
  by_cases hcap : s.results.length = s.max_records_count
  · rw [if_pos hcap]
  · rw [if_neg hcap, hval, if_pos (by simp)]

theorem scanLoop_stop (fuel : Nat) (s : MVCCScanner) (e : StoreEntry)
    (t : List StoreEntry) (h : s.it.curs = e :: t)
    (hcap : s.results.length ≠ s.max_records_count)
    (hstop : keyLtB (s.end_key.getD s.start_key) e.1.key = true) :
    MVCCScanner.scanLoop (fuel + 1) s = s := by
  have hval : s.it.valid = true := by simp [MVCCIterator.valid, h]
  have hk : s.it.current_key = e.1 := by simp [MVCCIterator.current_key, h]
  unfold MVCCScanner.scanLoop
  rw [if_neg hcap, hval, if_neg (by simp), hk]
  cases hek : s.end_key with
  | none =>
      rw [hek] at hstop
      simp only [Option.getD_none] at hstop
      rw [if_pos hstop]
  | some ek =>
      rw [hek] at hstop
      simp only [Option.getD_some] at hstop
      rw [if_pos hstop]

theorem scanLoop_step (fuel : Nat) (s : MVCCScanner) (e : StoreEntry)
    (t : List StoreEntry) (h : s.it.curs = e :: t)
    (hcap : s.results.length ≠ s.max_records_count)
    (hstop : keyLtB (s.end_key.getD s.start_key) e.1.key = false) :
    MVCCScanner.scanLoop (fuel + 1) s =
      MVCCScanner.scanLoop fuel ((s.get_current_key).2.advance_to_next_key) := by
  have hval : s.it.valid = true := by simp [MVCCIterator.valid, h]
  have hk : s.it.current_key = e.1 := by simp [MVCCIterator.current_key, h]
  unfold MVCCScanner.scanLoop
  rw [if_neg hcap, hval, if_neg (by simp), hk]
  cases hek : s.end_key with
  | none =>
      rw [hek] at hstop
      simp only [Option.getD_none] at hstop
      rw [if_neg (by simp [hstop])]
      exact MVCCScanner.scanLoop.eq_def _ _
  | some ek =>
      rw [hek] at hstop
      simp only [Option.getD_some] at hstop
      rw [if_neg (by simp [hstop])]
      exact MVCCScanner.scanLoop.eq_def _ _

theorem scanSpec_zero (R : Timestamp) (bound : Key) (l : List StoreEntry) :
    scanSpec R bound 0 l = ([], []) := by
  cases l with
  | nil => rw [scanSpec.eq_1]
  | cons e t => rw [scanSpec.eq_2, if_pos rfl]

theorem scanSpec_stop (R : Timestamp) (bound : Key) (rem : Nat) (e : StoreEntry)
    (t : List StoreEntry) (hstop : keyLtB bound e.1.key = true) :
    scanSpec R bound rem (e :: t) = ([], []) := by
  rw [scanSpec.eq_2]
  by_cases h : rem = 0
  · rw [if_pos h]
  · rw [if_neg h, if_pos hstop]

theorem scanSpec_intent (R : Timestamp) (bound : Key) (rem : Nat) (k : Key)
    (sv : StoredValue) (t : List StoreEntry) (hrem : rem ≠ 0)
    (hstop : keyLtB bound k = false) :
    scanSpec R bound rem ((⟨k, .intent⟩, sv) :: t) =
      ((scanSpec R bound rem (t.dropWhile (sameKeyB k))).1,
        (⟨sv.asUncommitted.txn_metadata, k⟩, sv.asUncommitted.value) ::
          (scanSpec R bound rem (t.dropWhile (sameKeyB k))).2) := by
  rw [scanSpec.eq_2, if_neg hrem, if_neg (by simp [hstop])]

theorem scanSpec_visible (R : Timestamp) (bound : Key) (rem : Nat) (k : Key)
    (ts0 : Timestamp) (sv : StoredValue) (t : List StoreEntry) (hrem : rem ≠ 0)
    (hstop : keyLtB bound k = false) (hts : tsLeB ts0 R = true) :
    scanSpec R bound rem ((⟨k, .version ts0⟩, sv) :: t) =
      ((⟨k, .version ts0⟩, sv.asRaw) ::
          (scanSpec R bound (rem - 1) (t.dropWhile (sameKeyB k))).1,
        (scanSpec R bound (rem - 1) (t.dropWhile (sameKeyB k))).2) := by
  rw [scanSpec.eq_2, if_neg hrem, if_neg (by simp [hstop])]
  simp only [hts, if_true]

theorem scanSpec_invisible_found (R : Timestamp) (bound : Key) (rem : Nat) (k : Key)
    (ts0 : Timestamp) (sv : StoredValue) (t : List StoreEntry) (x : StoreEntry)
    (hrem : rem ≠ 0) (hstop : keyLtB bound k = false) (hts : tsLeB ts0 R = false)
    (hfind : (t.takeWhile (sameKeyB k)).find? (fun y => tsLeB y.1.timestamp R) = some x) :
    scanSpec R bound rem ((⟨k, .version ts0⟩, sv) :: t) =
      ((x.1, x.2.asRaw) ::
          (scanSpec R bound (rem - 1) (t.dropWhile (sameKeyB k))).1,
        (scanSpec R bound (rem - 1) (t.dropWhile (sameKeyB k))).2) := by
  rw [scanSpec.eq_2, if_neg hrem, if_neg (by simp [hstop])]
  simp only [hts, Bool.false_eq_true, if_false, hfind]

theorem scanSpec_invisible_skip_nil (R : Timestamp) (bound : Key) (rem : Nat) (k : Key)
    (ts0 : Timestamp) (sv : StoredValue) (t : List StoreEntry)
    (hrem : rem ≠ 0) (hstop : keyLtB bound k = false) (hts : tsLeB ts0 R = false)
    (hfind : (t.takeWhile (sameKeyB k)).find? (fun y => tsLeB y.1.timestamp R) = none)
    (hdw : t.dropWhile (sameKeyB k) = []) :
    scanSpec R bound rem ((⟨k, .version ts0⟩, sv) :: t) = ([], []) := by
  rw [scanSpec.eq_2, if_neg hrem, if_neg (by simp [hstop])]
  simp only [hts, Bool.false_eq_true, if_false, hfind]
  split
  · rfl
  · rename_i f t2 heq
    rw [hdw] at heq
    cases heq

theorem scanSpec_invisible_skip_cons (R : Timestamp) (bound : Key) (rem : Nat) (k : Key)
    (ts0 : Timestamp) (sv : StoredValue) (t : List StoreEntry) (f : StoreEntry)
    (t2 : List StoreEntry)
    (hrem : rem ≠ 0) (hstop : keyLtB bound k = false) (hts : tsLeB ts0 R = false)
    (hfind : (t.takeWhile (sameKeyB k)).find? (fun y => tsLeB y.1.timestamp R) = none)
    (hdw : t.dropWhile (sameKeyB k) = f :: t2) :
    scanSpec R bound rem ((⟨k, .version ts0⟩, sv) :: t) =
      scanSpec R bound rem (t2.dropWhile (sameKeyB f.1.key)) := by
  rw [scanSpec.eq_2, if_neg hrem, if_neg (by simp [hstop])]
  simp only [hts, Bool.false_eq_true, if_false, hfind]
  split
  · rename_i heq
    rw [hdw] at heq
    cases heq
  · rename_i f2 t22 heq
    rw [hdw] at heq
    injection heq with h1 h2
    subst h1
    subst h2
    rfl

theorem dropWhile_dropWhile_self {α : Type} (p : α → Bool) (l : List α) :
    (l.dropWhile p).dropWhile p = l.dropWhile p := by
  cases h : l.dropWhile p with
  | nil => rfl
  | cons f t2 =>
      have hf : p f = false := by
        have h2 := List.head?_dropWhile_not p l
        rw [h] at h2
        simpa using h2
      rw [List.dropWhile_cons_of_neg (by simp [hf])]

/-- seek_older_version lands on an entry of the sought user key: the entry
is appended to the results. -/
theorem seek_older_version_found (s : MVCCScanner) (k : Key) (ts : Timestamp)
    (x : StoreEntry) (rest : List StoreEntry)
    (hafter : s.it.full.dropWhile (fun y => mvccLtB y.1 ⟨k, .version ts⟩) = x :: rest)
    (hxk : x.1.key = k) :
    s.seek_older_version k ts = (true,
      { s with it := { s.it with curs := x :: rest },
               results := s.results ++ [(x.1, x.2.asRaw)] }) := by
  unfold MVCCScanner.seek_older_version MVCCIterator.seek_ge
  simp only [hafter]
  have hval : ({ s.it with curs := x :: rest } : MVCCIterator).valid = true := by
    simp [MVCCIterator.valid]
  have hck : ({ s.it with curs := x :: rest } : MVCCIterator).current_key = x.1 := by
    simp [MVCCIterator.current_key]
  have hcv : ({ s.it with curs := x :: rest } : MVCCIterator).current_value = x.2.asRaw := by
    simp only [MVCCIterator.current_value, List.headD_cons]
    cases hx2 : x.2 <;> rfl
  rw [hval, if_pos rfl, hck, hcv, if_pos hxk]

/-- seek_older_version lands on an entry of a different user key: nothing is
added, the iterator stays at the new position. -/
theorem seek_older_version_miss (s : MVCCScanner) (k : Key) (ts : Timestamp)
    (x : StoreEntry) (rest : List StoreEntry)
    (hafter : s.it.full.dropWhile (fun y => mvccLtB y.1 ⟨k, .version ts⟩) = x :: rest)
    (hxk : x.1.key ≠ k) :
    s.seek_older_version k ts =
      (false, { s with it := { s.it with curs := x :: rest } }) := by
  unfold MVCCScanner.seek_older_version MVCCIterator.seek_ge
  simp only [hafter]
  have hval : ({ s.it with curs := x :: rest } : MVCCIterator).valid = true := by
    simp [MVCCIterator.valid]
  have hck : ({ s.it with curs := x :: rest } : MVCCIterator).current_key = x.1 := by
    simp [MVCCIterator.current_key]
  rw [hval, if_pos rfl, hck, if_neg hxk]

/-- seek_older_version runs off the end of the store: nothing is added and
the iterator becomes invalid. -/
theorem seek_older_version_invalid (s : MVCCScanner) (k : Key) (ts : Timestamp)
    (hafter : s.it.full.dropWhile (fun y => mvccLtB y.1 ⟨k, .version ts⟩) = []) :
    s.seek_older_version k ts =
      (false, { s with it := { s.it with curs := [] } }) := by
  unfold MVCCScanner.seek_older_version MVCCIterator.seek_ge
  simp only [hafter]
  have hval : ({ s.it with curs := ([] : List StoreEntry) } : MVCCIterator).valid = false := by
    simp [MVCCIterator.valid]
  rw [hval]
  simp

end KVDB
namespace KVDB

theorem scanLoop_eq_scanSpec (fuel : Nat) :
    ∀ (s : MVCCScanner) (pre : List StoreEntry),
      s.it.full = pre ++ s.it.curs →
      sortedStore s.it.full →
      (∀ x ∈ pre, ∀ f ∈ s.it.curs, keyLtB x.1.key f.1.key = true) →
      s.it.curs.length < fuel →
      s.results.length ≤ s.max_records_count →
      (MVCCScanner.scanLoop fuel s).results = s.results ++
        (scanSpec s.timestamp (s.end_key.getD s.start_key)
          (s.max_records_count - s.results.length) s.it.curs).1 ∧
      (MVCCScanner.scanLoop fuel s).found_intents = s.found_intents ++
        (scanSpec s.timestamp (s.end_key.getD s.start_key)
          (s.max_records_count - s.results.length) s.it.curs).2 := by
  induction fuel with
  | zero =>
      intro s pre _ _ _ hfuel _
      omega
  | succ n ih =>
      intro s pre hfull hsort hpre hfuel hmax
      cases hcurs : s.it.curs with
      | nil =>
          rw [scanLoop_invalid n s hcurs]
          simp [scanSpec.eq_1]
      | cons e t =>
          have hsortc : sortedStore (e :: t) := by
            have hsub : (e :: t).Sublist s.it.full := by
              rw [hfull, hcurs]
              exact (List.suffix_append pre (e :: t)).sublist
            exact sortedStore_sublist hsort hsub
          by_cases hcap : s.results.length = s.max_records_count
          · rw [scanLoop_cap n s hcap]
            have h0 : s.max_records_count - s.results.length = 0 := by omega
            rw [h0, scanSpec_zero]
            simp
          · by_cases hstop : keyLtB (s.end_key.getD s.start_key) e.1.key = true
            · rw [scanLoop_stop n s e t hcurs hcap hstop,
                scanSpec_stop _ _ _ _ _ hstop]
              simp
            · have hstop2 : keyLtB (s.end_key.getD s.start_key) e.1.key = false := by
                simpa using hstop
              rw [scanLoop_step n s e t hcurs hcap hstop2]
              obtain ⟨⟨k, kind⟩, sv⟩ := e
              have hgrpafter := group_after hsortc
              have hrem : s.max_records_count - s.results.length ≠ 0 := by omega
              cases kind with
              | intent =>
                  have hgck := get_current_key_intent s k sv t hcurs
                  have hadv : (s.get_current_key).2.advance_to_next_key
                      = { s with
                          found_intents := s.found_intents ++ [(⟨sv.asUncommitted.txn_metadata, k⟩, sv.asUncommitted.value)]
                          it := { s.it with curs := t.dropWhile (sameKeyB k) } } := by
                    rw [hgck]
                    dsimp only
                    rw [advance_to_next_key_cons _ (⟨⟨k, .intent⟩, sv⟩) t (by exact hcurs)]
                  rw [hadv]
                  have hfull3 : ({ s with
                          found_intents := s.found_intents ++ [(⟨sv.asUncommitted.txn_metadata, k⟩, sv.asUncommitted.value)]
                          it := { s.it with curs := t.dropWhile (sameKeyB k) } } :
                        MVCCScanner).it.full
                      = (pre ++ ((⟨⟨k, .intent⟩, sv⟩ : StoreEntry) ::
                          t.takeWhile (sameKeyB k))) ++ t.dropWhile (sameKeyB k) := by
                    show s.it.full = _
                    rw [hfull, hcurs]
                    simp [List.append_assoc, List.cons_append,
                      List.takeWhile_append_dropWhile]
                  have hpre3 : ∀ x ∈ pre ++ ((⟨⟨k, .intent⟩, sv⟩ : StoreEntry) ::
                          t.takeWhile (sameKeyB k)),
                      ∀ f ∈ t.dropWhile (sameKeyB k), keyLtB x.1.key f.1.key = true := by
                    intro x hx f hf
                    rcases List.mem_append.mp hx with hx | hx
                    · apply hpre x hx f
                      rw [hcurs]
                      exact List.mem_cons_of_mem _ ((List.dropWhile_sublist _).subset hf)
                    · rcases List.mem_cons.mp hx with rfl | hx2
                      · exact hgrpafter f hf
                      · rw [group_keys x hx2]
                        exact hgrpafter f hf
                  have hfuel3 : (t.dropWhile (sameKeyB k)).length < n := by
                    have h1 : (t.dropWhile (sameKeyB k)).length ≤ t.length :=
                      (List.dropWhile_sublist _).length_le
                    have h2 := hfuel
                    rw [hcurs] at h2
                    simp only [List.length_cons] at h2
                    omega
                  obtain ⟨ihr, ihi⟩ := ih _ _ hfull3 hsort hpre3 hfuel3 hmax
                  rw [scanSpec_intent _ _ _ _ _ _ hrem hstop2]
                  constructor
                  · rw [ihr]
                  · rw [ihi]
                    simp
              | version ts0 =>
                  by_cases hvis : tsLtB s.timestamp ts0 = true
                  · have hts0 : tsLeB ts0 s.timestamp = false := by
                      rw [tsLeB_eq_not_tsLtB, hvis]
                      rfl
                    have hgck := get_current_key_invisible s k ts0 sv t hcurs hvis
                    have hpq : ∀ y ∈ t.takeWhile (sameKeyB k),
                        (fun z => mvccLtB z.1 ⟨k, .version s.timestamp⟩) y
                          = (fun z => !(tsLeB z.1.timestamp s.timestamp)) y := by
                      intro y hy
                      obtain ⟨tsy, hykind, _⟩ := group_versions hsortc rfl y hy
                      have hykey : y.1.key = k := group_keys y hy
                      have hy1 : y.1 = ⟨k, .version tsy⟩ := by
                        calc y.1 = ⟨y.1.key, y.1.kind⟩ := rfl
                          _ = ⟨k, .version tsy⟩ := by rw [hykey, hykind]
                      show mvccLtB y.1 ⟨k, .version s.timestamp⟩
                          = !(tsLeB y.1.timestamp s.timestamp)
                      rw [hy1]
                      show mvccLtB ⟨k, .version tsy⟩ ⟨k, .version s.timestamp⟩
                          = !(tsLeB (MVCCKey.timestamp ⟨k, .version tsy⟩) s.timestamp)
                      simp [mvccLtB, kindLtB, keyLtB_irrefl, MVCCKey.timestamp,
                        tsLeB_eq_not_tsLtB]
                    have hprefix : ∀ x ∈ pre,
                        (fun z => mvccLtB z.1 (⟨k, .version s.timestamp⟩ : MVCCKey)) x
                          = true := by
                      intro x hx
                      apply mvccLtB_of_keyLtB
                      exact hpre x hx (⟨⟨k, .version ts0⟩, sv⟩)
                        (by rw [hcurs]; exact List.mem_cons_self _ _)
                    have hpe : (fun z => mvccLtB z.1 (⟨k, .version s.timestamp⟩ : MVCCKey))
                        (⟨⟨k, .version ts0⟩, sv⟩ : StoreEntry) = true := by
                      show mvccLtB ⟨k, .version ts0⟩ ⟨k, .version s.timestamp⟩ = true
                      simp [mvccLtB, kindLtB, keyLtB_irrefl, hvis]
                    have hdwfull : s.it.full.dropWhile
                          (fun z => mvccLtB z.1 ⟨k, .version s.timestamp⟩)
                        = t.dropWhile (fun z => mvccLtB z.1 ⟨k, .version s.timestamp⟩) := by
                      rw [hfull, hcurs, List.dropWhile_append_of_pos hprefix,
                        List.dropWhile_cons, if_pos hpe]
                    cases hfind : (t.takeWhile (sameKeyB k)).find?
                        (fun z => tsLeB z.1.timestamp s.timestamp) with
                    | some x =>
                        have hxmem : x ∈ t.takeWhile (sameKeyB k) :=
                          List.mem_of_find?_eq_some hfind
                        have hxkey : x.1.key = k := group_keys x hxmem
                        have hhead : ((t.takeWhile (sameKeyB k)).dropWhile
                            (fun z => mvccLtB z.1 ⟨k, .version s.timestamp⟩)).head?
                              = some x := by
                          rw [dropWhile_congr_mem _ _ _ hpq,
                            ← find?_eq_head?_dropWhile_not]
                          exact hfind
                        obtain ⟨g2, hg2⟩ : ∃ g2, (t.takeWhile (sameKeyB k)).dropWhile
                            (fun z => mvccLtB z.1 ⟨k, .version s.timestamp⟩) = x :: g2 := by
                          cases hg : (t.takeWhile (sameKeyB k)).dropWhile
                              (fun z => mvccLtB z.1 ⟨k, .version s.timestamp⟩) with
                          | nil =>
                              rw [hg] at hhead
                              cases hhead
                          | cons a b =>
                              rw [hg] at hhead
                              simp only [List.head?_cons, Option.some.injEq] at hhead
                              exact ⟨b, by rw [hhead]⟩
                        have hdw2 : s.it.full.dropWhile
                            (fun z => mvccLtB z.1 ⟨k, .version s.timestamp⟩)
                              = x :: (g2 ++ t.dropWhile (sameKeyB k)) := by
                          rw [hdwfull]
                          conv_lhs => rw [← List.takeWhile_append_dropWhile (sameKeyB k) t]
                          rw [dropWhile_append_stop (by rw [hg2]; simp), hg2]
                          simp
                        have hseek := seek_older_version_found s k s.timestamp x
                          (g2 ++ t.dropWhile (sameKeyB k)) hdw2 hxkey
                        have hg2keys : ∀ y ∈ g2, sameKeyB x.1.key y = true := by
                          intro y hy
                          have hyg : y ∈ t.takeWhile (sameKeyB k) := by
                            have hmem : y ∈ x :: g2 := List.mem_cons_of_mem _ hy
                            rw [← hg2] at hmem
                            exact (List.dropWhile_sublist _).subset hmem
                          have hyk := group_keys y hyg
                          simp [sameKeyB, hyk, hxkey]
                        have hcurs2 : (g2 ++ t.dropWhile (sameKeyB k)).dropWhile
                            (sameKeyB x.1.key) = t.dropWhile (sameKeyB k) := by
                          rw [List.dropWhile_append_of_pos hg2keys, hxkey]
                          exact dropWhile_dropWhile_self _ _
                        have hadv : (s.get_current_key).2.advance_to_next_key
                            = { s with
                                results := s.results ++ [(x.1, x.2.asRaw)]
                                it := { s.it with curs := t.dropWhile (sameKeyB k) } } := by
                          rw [hgck, hseek]
                          dsimp only
                          rw [advance_to_next_key_cons _ x (g2 ++ t.dropWhile (sameKeyB k))
                            (by exact rfl)]
                          rw [hcurs2]
                        rw [hadv]
                        have hfull3 : ({ s with
                                results := s.results ++ [(x.1, x.2.asRaw)]
                                it := { s.it with curs := t.dropWhile (sameKeyB k) } } :
                              MVCCScanner).it.full
                            = (pre ++ ((⟨⟨k, .version ts0⟩, sv⟩ : StoreEntry) ::
                                t.takeWhile (sameKeyB k))) ++ t.dropWhile (sameKeyB k) := by
                          show s.it.full = _
                          rw [hfull, hcurs]
                          simp [List.append_assoc, List.cons_append,
                            List.takeWhile_append_dropWhile]
                        have hpre3 : ∀ z ∈ pre ++ ((⟨⟨k, .version ts0⟩, sv⟩ : StoreEntry) ::
                                t.takeWhile (sameKeyB k)),
                            ∀ f ∈ t.dropWhile (sameKeyB k), keyLtB z.1.key f.1.key = true := by
                          intro z hz f hf
                          rcases List.mem_append.mp hz with hz | hz
                          · apply hpre z hz f
                            rw [hcurs]
                            exact List.mem_cons_of_mem _ ((List.dropWhile_sublist _).subset hf)
                          · rcases List.mem_cons.mp hz with rfl | hz2
                            · exact hgrpafter f hf
                            · rw [group_keys z hz2]
                              exact hgrpafter f hf
                        have hfuel3 : (t.dropWhile (sameKeyB k)).length < n := by
                          have h1 : (t.dropWhile (sameKeyB k)).length ≤ t.length :=
                            (List.dropWhile_sublist _).length_le
                          have h2 := hfuel
                          rw [hcurs] at h2
                          simp only [List.length_cons] at h2
                          omega
                        have hmax3 : ({ s with
                                results := s.results ++ [(x.1, x.2.asRaw)]
                                it := { s.it with curs := t.dropWhile (sameKeyB k) } } :
                              MVCCScanner).results.length ≤ s.max_records_count := by
                          show (s.results ++ [(x.1, x.2.asRaw)]).length ≤ _
                          simp only [List.length_append, List.length_cons, List.length_nil]
                          omega
                        obtain ⟨ihr, ihi⟩ := ih _ _ hfull3 hsort hpre3 hfuel3 hmax3
                        have hlen : (s.results ++ [(x.1, x.2.asRaw)]).length
                            = s.results.length + 1 := by
                          simp
                        have harith : s.max_records_count - (s.results.length + 1)
                            = s.max_records_count - s.results.length - 1 := by
                          omega
                        rw [scanSpec_invisible_found _ _ _ _ _ _ _ _ hrem hstop2 hts0 hfind]
                        constructor
                        · rw [ihr, hlen, harith]
                          simp [List.append_assoc]
                        · rw [ihi, hlen, harith]
                    | none =>
                        have hallp : ∀ y ∈ t.takeWhile (sameKeyB k),
                            (fun z => mvccLtB z.1 (⟨k, .version s.timestamp⟩ : MVCCKey)) y
                              = true := by
                          intro y hy
                          rw [hpq y hy]
                          have hq := List.find?_eq_none.mp hfind y hy
                          simp only [Bool.not_eq_true] at hq
                          simp [hq]
                        have hdwt : t.dropWhile
                              (fun z => mvccLtB z.1 ⟨k, .version s.timestamp⟩)
                            = (t.dropWhile (sameKeyB k)).dropWhile
                              (fun z => mvccLtB z.1 ⟨k, .version s.timestamp⟩) := by
                          conv_lhs => rw [← List.takeWhile_append_dropWhile (sameKeyB k) t]
                          rw [List.dropWhile_append_of_pos hallp]
                        cases hr : t.dropWhile (sameKeyB k) with
                        | nil =>
                            have hdw2 : s.it.full.dropWhile
                                (fun z => mvccLtB z.1 ⟨k, .version s.timestamp⟩) = [] := by
                              rw [hdwfull, hdwt, hr]
                              rfl
                            have hseek := seek_older_version_invalid s k s.timestamp hdw2
                            have hadv : (s.get_current_key).2.advance_to_next_key
                                = { s with it :=
                                    { s.it with curs := ([] : List StoreEntry) } } := by
                              rw [hgck, hseek]
                              dsimp only
                              rw [advance_to_next_key_nil _ (by exact rfl)]
                            rw [hadv]
                            have hloop : MVCCScanner.scanLoop n
                                  { s with it := { s.it with curs := ([] : List StoreEntry) } }
                                = { s with it :=
                                    { s.it with curs := ([] : List StoreEntry) } } := by
                              cases n with
                              | zero => rfl
                              | succ m => exact scanLoop_invalid m _ (by exact rfl)
                            rw [hloop]
                            rw [scanSpec_invisible_skip_nil _ _ _ _ _ _ _ hrem hstop2 hts0
                              hfind hr]
                            constructor
                            · show s.results = s.results ++ []
                              simp
                            · show s.found_intents = s.found_intents ++ []
                              simp
                        | cons f t2 =>
                            have hfmem : f ∈ t.dropWhile (sameKeyB k) := by
                              rw [hr]
                              exact List.mem_cons_self _ _
                            have hfkey : keyLtB k f.1.key = true := hgrpafter f hfmem
                            have hfne : f.1.key ≠ k := by
                              intro hc
                              rw [hc] at hfkey
                              rw [keyLtB_irrefl] at hfkey
                              cases hfkey
                            have hpf : mvccLtB f.1 (⟨k, .version s.timestamp⟩ : MVCCKey)
                                = false := by
                              simp [mvccLtB, keyLtB_asymm hfkey, hfne]
                            have hdw2 : s.it.full.dropWhile
                                (fun z => mvccLtB z.1 ⟨k, .version s.timestamp⟩)
                                  = f :: t2 := by
                              rw [hdwfull, hdwt, hr, List.dropWhile_cons, if_neg (by simp [hpf])]
                            have hseek := seek_older_version_miss s k s.timestamp f t2 hdw2 hfne
                            have hadv : (s.get_current_key).2.advance_to_next_key
                                = { s with it := { s.it with
                                    curs := t2.dropWhile (sameKeyB f.1.key) } } := by
                              rw [hgck, hseek]
                              dsimp only
                              rw [advance_to_next_key_cons _ f t2 (by exact rfl)]
                            rw [hadv]
                            have ht : t = t.takeWhile (sameKeyB k) ++ (f :: t2) := by
                              conv_lhs => rw [← List.takeWhile_append_dropWhile (sameKeyB k) t]
                              rw [hr]
                            have ht2 : t2 = t2.takeWhile (sameKeyB f.1.key)
                                ++ t2.dropWhile (sameKeyB f.1.key) :=
                              (List.takeWhile_append_dropWhile _ _).symm
                            have hfull3 : ({ s with it := { s.it with
                                    curs := t2.dropWhile (sameKeyB f.1.key) } } :
                                  MVCCScanner).it.full
                                = (pre ++ ((⟨⟨k, .version ts0⟩, sv⟩ : StoreEntry) ::
                                    (t.takeWhile (sameKeyB k) ++ (f ::
                                      t2.takeWhile (sameKeyB f.1.key)))))
                                  ++ t2.dropWhile (sameKeyB f.1.key) := by
                              show s.it.full = _
                              rw [hfull, hcurs]
                              conv_lhs => rw [ht]
                              conv_lhs => rw [ht2]
                              simp [List.append_assoc, List.cons_append]
                            have hsortf : sortedStore (f :: t2) := by
                              have hsub : (f :: t2).Sublist s.it.full := by
                                rw [hfull, hcurs, ← hr]
                                have h1 : (t.dropWhile (sameKeyB k)).Sublist t :=
                                  List.dropWhile_sublist _
                                have h2 : t.Sublist
                                    ((⟨⟨k, .version ts0⟩, sv⟩ : StoreEntry) :: t) :=
                                  List.sublist_cons_self _ _
                                have h3 : (((⟨⟨k, .version ts0⟩, sv⟩ : StoreEntry) ::
                                      t)).Sublist
                                    (pre ++ ((⟨⟨k, .version ts0⟩, sv⟩ : StoreEntry) :: t)) :=
                                  (List.suffix_append pre _).sublist
                                exact (h1.trans h2).trans h3
                              exact sortedStore_sublist hsort hsub
                            have hgrpafter2 := group_after hsortf
                            have hpre3 : ∀ z ∈ pre ++ ((⟨⟨k, .version ts0⟩, sv⟩ : StoreEntry) ::
                                    (t.takeWhile (sameKeyB k) ++ (f ::
                                      t2.takeWhile (sameKeyB f.1.key)))),
                                ∀ h2 ∈ t2.dropWhile (sameKeyB f.1.key),
                                  keyLtB z.1.key h2.1.key = true := by
                              intro z hz h2 hh2
                              have hh2t2 : h2 ∈ t2 := (List.dropWhile_sublist _).subset hh2
                              have hh2dw : h2 ∈ t.dropWhile (sameKeyB k) := by
                                rw [hr]
                                exact List.mem_cons_of_mem _ hh2t2
                              rcases List.mem_append.mp hz with hz | hz
                              · apply hpre z hz h2
                                rw [hcurs]
                                exact List.mem_cons_of_mem _
                                  ((List.dropWhile_sublist _).subset hh2dw)
                              · rcases List.mem_cons.mp hz with rfl | hz2
                                · exact hgrpafter h2 hh2dw
                                · rcases List.mem_append.mp hz2 with hz3 | hz3
                                  · rw [group_keys z hz3]
                                    exact hgrpafter h2 hh2dw
                                  · rcases List.mem_cons.mp hz3 with rfl | hz4
                                    · exact hgrpafter2 h2 hh2
                                    · rw [group_keys z hz4]
                                      exact hgrpafter2 h2 hh2
                            have hfuel3 : (t2.dropWhile (sameKeyB f.1.key)).length < n := by
                              have h1 : (t2.dropWhile (sameKeyB f.1.key)).length ≤ t2.length :=
                                (List.dropWhile_sublist _).length_le
                              have h2 : (f :: t2).length ≤ t.length := by
                                rw [← hr]
                                exact (List.dropWhile_sublist _).length_le
                              have h3 := hfuel
                              rw [hcurs] at h3
                              simp only [List.length_cons] at h2 h3
                              omega
                            obtain ⟨ihr, ihi⟩ := ih _ _ hfull3 hsort hpre3 hfuel3 hmax
                            rw [scanSpec_invisible_skip_cons _ _ _ _ _ _ _ _ _ hrem hstop2
                              hts0 hfind hr]
                            constructor
                            · rw [ihr]
                            · rw [ihi]
                  · have hvis2 : tsLtB s.timestamp ts0 = false := by
                      simpa using hvis
                    have hts : tsLeB ts0 s.timestamp = true := by
                      rw [tsLeB_eq_not_tsLtB, hvis2]
                      rfl
                    have hgck := get_current_key_visible s k ts0 sv t hcurs hvis2
                    have hadv : (s.get_current_key).2.advance_to_next_key
                        = { s with
                            results := s.results ++ [(⟨k, .version ts0⟩, sv.asRaw)]
                            it := { s.it with curs := t.dropWhile (sameKeyB k) } } := by
                      rw [hgck]
                      dsimp only
                      rw [advance_to_next_key_cons _ (⟨⟨k, .version ts0⟩, sv⟩) t (by exact hcurs)]
                    rw [hadv]
                    have hfull3 : ({ s with
                            results := s.results ++ [(⟨k, .version ts0⟩, sv.asRaw)]
                            it := { s.it with curs := t.dropWhile (sameKeyB k) } } :
                          MVCCScanner).it.full
                        = (pre ++ ((⟨⟨k, .version ts0⟩, sv⟩ : StoreEntry) ::
                            t.takeWhile (sameKeyB k))) ++ t.dropWhile (sameKeyB k) := by
                      show s.it.full = _
                      rw [hfull, hcurs]
                      simp [List.append_assoc, List.cons_append,
                        List.takeWhile_append_dropWhile]
                    have hpre3 : ∀ x ∈ pre ++ ((⟨⟨k, .version ts0⟩, sv⟩ : StoreEntry) ::
                            t.takeWhile (sameKeyB k)),
                        ∀ f ∈ t.dropWhile (sameKeyB k), keyLtB x.1.key f.1.key = true := by
                      intro x hx f hf
                      rcases List.mem_append.mp hx with hx | hx
                      · apply hpre x hx f
                        rw [hcurs]
                        exact List.mem_cons_of_mem _ ((List.dropWhile_sublist _).subset hf)
                      · rcases List.mem_cons.mp hx with rfl | hx2
                        · exact hgrpafter f hf
                        · rw [group_keys x hx2]
                          exact hgrpafter f hf
                    have hfuel3 : (t.dropWhile (sameKeyB k)).length < n := by
                      have h1 : (t.dropWhile (sameKeyB k)).length ≤ t.length :=
                        (List.dropWhile_sublist _).length_le
                      have h2 := hfuel
                      rw [hcurs] at h2
                      simp only [List.length_cons] at h2
                      omega
                    have hmax3 : ({ s with
                            results := s.results ++ [(⟨k, .version ts0⟩, sv.asRaw)]
                            it := { s.it with curs := t.dropWhile (sameKeyB k) } } :
                          MVCCScanner).results.length
                        ≤ s.max_records_count := by
                      show (s.results ++ [((⟨k, .version ts0⟩ : MVCCKey), sv.asRaw)]).length ≤ _
                      simp only [List.length_append, List.length_cons, List.length_nil]
                      omega
                    obtain ⟨ihr, ihi⟩ := ih _ _ hfull3 hsort hpre3 hfuel3 hmax3
                    have hlen : (s.results ++ [((⟨k, .version ts0⟩ : MVCCKey), sv.asRaw)]).length
                        = s.results.length + 1 := by
                      simp
                    have harith : s.max_records_count - (s.results.length + 1)
                        = s.max_records_count - s.results.length - 1 := by
                      omega
                    rw [scanSpec_visible _ _ _ _ _ _ _ hrem hstop2 hts]
                    constructor
                    · rw [ihr, hlen, harith]
                      simp [List.append_assoc]
                    · rw [ihi, hlen, harith]


theorem mvccLtB_intent_right (a : MVCCKey) (st : Key) :
    mvccLtB a ⟨st, .intent⟩ = keyLtB a.key st := by
  cases hk : a.kind <;> simp [mvccLtB, kindLtB, hk]

/-- The sorted-store refinement of MVCCScanner::scan: on a store sorted in
MVCC key order, scan computes exactly the per-user-key specification
scanSpec, starting from the first entry whose user key is at or above
start_key and bounded by end_key (start_key when absent). -/
theorem scan_eq_scanSpec (full : List StoreEntry) (start_key : Key)
    (end_key : Option Key) (R : Timestamp) (maxc : Nat) (txn : Option Txn)
    (hsort : sortedStore full) :
    ((MVCCScanner.new ⟨full, full⟩ start_key end_key R maxc txn).scan).results
        = (scanSpec R (end_key.getD start_key) maxc
            (full.dropWhile (fun e => keyLtB e.1.key start_key))).1
      ∧ ((MVCCScanner.new ⟨full, full⟩ start_key end_key R maxc txn).scan).found_intents
        = (scanSpec R (end_key.getD start_key) maxc
            (full.dropWhile (fun e => keyLtB e.1.key start_key))).2 := by
  have hdwc : full.dropWhile (fun e => mvccLtB e.1 ⟨start_key, .intent⟩)
      = full.dropWhile (fun e => keyLtB e.1.key start_key) := by
    apply dropWhile_congr_mem
    intro x _
    exact mvccLtB_intent_right x.1 start_key
  have hsplit : full = full.takeWhile (fun e => keyLtB e.1.key start_key)
      ++ full.dropWhile (fun e => keyLtB e.1.key start_key) :=
    (List.takeWhile_append_dropWhile _ _).symm
  have hpre0 : ∀ x ∈ full.takeWhile (fun e => keyLtB e.1.key start_key),
      ∀ f ∈ full.dropWhile (fun e => keyLtB e.1.key start_key),
        keyLtB x.1.key f.1.key = true := by
    intro x hx f hf
    have hxlt : keyLtB x.1.key start_key = true := by
      have := List.mem_takeWhile_imp hx
      simpa using this
    cases hdwe : full.dropWhile (fun e => keyLtB e.1.key start_key) with
    | nil =>
        rw [hdwe] at hf
        cases hf
    | cons f0 rest =>
        have hf0 : keyLtB f0.1.key start_key = false := by
          have h2 := List.head?_dropWhile_not
            (fun e => keyLtB e.1.key start_key) full
          rw [hdwe] at h2
          simpa using h2
        have hxf0 : keyLtB x.1.key f0.1.key = true :=
          keyLtB_lt_of_lt_of_nlt hxlt hf0
        rw [hdwe] at hf
        rcases List.mem_cons.mp hf with rfl | hf2
        · exact hxf0
        · have hsortdw : sortedStore (f0 :: rest) := by
            rw [← hdwe]
            exact sortedStore_sublist hsort (List.dropWhile_sublist _)
          have hff0 : keyLtB f.1.key f0.1.key = false :=
            mvccLtB_key_le ((List.pairwise_cons.mp hsortdw).1 f hf2)
          exact keyLtB_lt_of_lt_of_nlt hxf0 hff0
  have hlen0 : (full.dropWhile (fun e => keyLtB e.1.key start_key)).length
      < full.length + 1 :=
    Nat.lt_succ_of_le (List.dropWhile_sublist _).length_le
  have hmain := scanLoop_eq_scanSpec (full.length + 1)
    { MVCCScanner.new ⟨full, full⟩ start_key end_key R maxc txn with
        it := (⟨full, full⟩ : MVCCIterator).seek_ge ⟨start_key, .intent⟩ }
    (full.takeWhile (fun e => keyLtB e.1.key start_key))
    (by
      show full = List.takeWhile (fun e => keyLtB e.1.key start_key) full
          ++ full.dropWhile (fun e => mvccLtB e.1 ⟨start_key, .intent⟩)
      rw [hdwc]
      exact hsplit)
    (by
      show sortedStore full
      exact hsort)
    (by
      intro x hx f hf
      apply hpre0 x hx f
      have hf2 : f ∈ full.dropWhile (fun e => mvccLtB e.1 ⟨start_key, .intent⟩) := hf
      rw [hdwc] at hf2
      exact hf2)
    (by
      show (full.dropWhile (fun e => mvccLtB e.1 ⟨start_key, .intent⟩)).length
          < full.length + 1
      rw [hdwc]
      exact hlen0)
    (by
      show ([] : List (MVCCKey × Value)).length ≤ maxc
      simp)
  obtain ⟨hr, hi⟩ := hmain
  constructor
  · calc ((MVCCScanner.new ⟨full, full⟩ start_key end_key R maxc txn).scan).results
        = ([] : List (MVCCKey × Value)) ++ (scanSpec R (end_key.getD start_key) (maxc - 0)
            (full.dropWhile (fun e => mvccLtB e.1 ⟨start_key, .intent⟩))).1 := hr
      _ = (scanSpec R (end_key.getD start_key) maxc
            (full.dropWhile (fun e => keyLtB e.1.key start_key))).1 := by
          rw [hdwc]
          simp
  · calc ((MVCCScanner.new ⟨full, full⟩ start_key end_key R maxc txn).scan).found_intents
        = ([] : List (TxnIntent × Value)) ++ (scanSpec R (end_key.getD start_key) (maxc - 0)
            (full.dropWhile (fun e => mvccLtB e.1 ⟨start_key, .intent⟩))).2 := hi
      _ = (scanSpec R (end_key.getD start_key) maxc
            (full.dropWhile (fun e => keyLtB e.1.key start_key))).2 := by
          rw [hdwc]
          simp


/-- Shape of the scan specification output: at most rem results, no result
past the bound, every result key is a store key, and result keys are
strictly ascending (hence at most one version per user key). -/
theorem scanSpec_shape (R : Timestamp) (bound : Key) :
    ∀ (n : Nat) (l : List StoreEntry), l.length ≤ n → sortedStore l → ∀ (rem : Nat),
      (scanSpec R bound rem l).1.length ≤ rem ∧
      (∀ p ∈ (scanSpec R bound rem l).1, keyLtB bound p.1.key = false) ∧
      (∀ p ∈ (scanSpec R bound rem l).1, ∃ e2 ∈ l, e2.1.key = p.1.key) ∧
      List.Pairwise (fun a b => keyLtB a.1.key b.1.key = true) (scanSpec R bound rem l).1 := by
  intro n
  induction n with
  | zero =>
      intro l hl _ rem
      cases l with
      | nil =>
          rw [scanSpec.eq_1]
          simp
      | cons e t => simp at hl
  | succ m ihm =>
      intro l hl hsort rem
      cases l with
      | nil =>
          rw [scanSpec.eq_1]
          simp
      | cons e t =>
          by_cases hrem : rem = 0
          · subst hrem
            rw [scanSpec_zero]
            simp
          · by_cases hstop : keyLtB bound e.1.key = true
            · rw [scanSpec_stop _ _ _ _ _ hstop]
              simp
            · have hstop2 : keyLtB bound e.1.key = false := by
                simpa using hstop
              obtain ⟨⟨k, kind⟩, sv⟩ := e
              have hgrpafter := group_after hsort
              have hlt : t.length ≤ m := by
                simp only [List.length_cons] at hl
                omega
              have hldw : (t.dropWhile (sameKeyB k)).length ≤ m := by
                have := (List.dropWhile_sublist (sameKeyB k) (l := t)).length_le
                omega
              have hsortdw : sortedStore (t.dropWhile (sameKeyB k)) := by
                refine sortedStore_sublist hsort ?_
                exact (List.dropWhile_sublist _).trans (List.sublist_cons_self _ _)
              cases kind with
              | intent =>
                  rw [scanSpec_intent _ _ _ _ _ _ hrem hstop2]
                  obtain ⟨h1, h2, h3, h4⟩ := ihm (t.dropWhile (sameKeyB k)) hldw hsortdw rem
                  refine ⟨h1, h2, ?_, h4⟩
                  intro p hp
                  obtain ⟨e2, he2, hk2⟩ := h3 p hp
                  exact ⟨e2, List.mem_cons_of_mem _
                    ((List.dropWhile_sublist _).subset he2), hk2⟩
              | version ts0 =>
                  by_cases hts : tsLeB ts0 R = true
                  · rw [scanSpec_visible _ _ _ _ _ _ _ hrem hstop2 hts]
                    obtain ⟨h1, h2, h3, h4⟩ :=
                      ihm (t.dropWhile (sameKeyB k)) hldw hsortdw (rem - 1)
                    refine ⟨?_, ?_, ?_, ?_⟩
                    · simp only [List.length_cons]
                      omega
                    · intro p hp
                      rcases List.mem_cons.mp hp with rfl | hp2
                      · exact hstop2
                      · exact h2 p hp2
                    · intro p hp
                      rcases List.mem_cons.mp hp with rfl | hp2
                      · exact ⟨⟨⟨k, .version ts0⟩, sv⟩, List.mem_cons_self _ _, rfl⟩
                      · obtain ⟨e2, he2, hk2⟩ := h3 p hp2
                        exact ⟨e2, List.mem_cons_of_mem _
                          ((List.dropWhile_sublist _).subset he2), hk2⟩
                    · refine List.pairwise_cons.mpr ⟨?_, h4⟩
                      intro p hp
                      obtain ⟨e2, he2, hk2⟩ := h3 p hp
                      rw [← hk2]
                      exact hgrpafter e2 he2
                  · have hts2 : tsLeB ts0 R = false := by
                      simpa using hts
                    cases hfind : (t.takeWhile (sameKeyB k)).find?
                        (fun y => tsLeB y.1.timestamp R) with
                    | some x =>
                        have hxmem : x ∈ t.takeWhile (sameKeyB k) :=
                          List.mem_of_find?_eq_some hfind
                        have hxkey : x.1.key = k := group_keys x hxmem
                        rw [scanSpec_invisible_found _ _ _ _ _ _ _ _ hrem hstop2 hts2 hfind]
                        obtain ⟨h1, h2, h3, h4⟩ :=
                          ihm (t.dropWhile (sameKeyB k)) hldw hsortdw (rem - 1)
                        refine ⟨?_, ?_, ?_, ?_⟩
                        · simp only [List.length_cons]
                          omega
                        · intro p hp
                          rcases List.mem_cons.mp hp with rfl | hp2
                          · show keyLtB bound x.1.key = false
                            rw [hxkey]
                            exact hstop2
                          · exact h2 p hp2
                        · intro p hp
                          rcases List.mem_cons.mp hp with rfl | hp2
                          · exact ⟨x, List.mem_cons_of_mem _
                              ((List.takeWhile_sublist _).subset hxmem), rfl⟩
                          · obtain ⟨e2, he2, hk2⟩ := h3 p hp2
                            exact ⟨e2, List.mem_cons_of_mem _
                              ((List.dropWhile_sublist _).subset he2), hk2⟩
                        · refine List.pairwise_cons.mpr ⟨?_, h4⟩
                          intro p hp
                          obtain ⟨e2, he2, hk2⟩ := h3 p hp
                          rw [← hk2]
                          show keyLtB x.1.key e2.1.key = true
                          rw [hxkey]
                          exact hgrpafter e2 he2
                    | none =>
                        cases hr2 : t.dropWhile (sameKeyB k) with
                        | nil =>
                            rw [scanSpec_invisible_skip_nil _ _ _ _ _ _ _ hrem hstop2
                              hts2 hfind hr2]
                            simp
                        | cons f t2 =>
                            rw [scanSpec_invisible_skip_cons _ _ _ _ _ _ _ _ _ hrem
                              hstop2 hts2 hfind hr2]
                            have hsortf : sortedStore (f :: t2) := by
                              rw [← hr2]
                              exact sortedStore_sublist hsort
                                ((List.dropWhile_sublist _).trans
                                  (List.sublist_cons_self _ _))
                            have hsortdw2 : sortedStore
                                (t2.dropWhile (sameKeyB f.1.key)) := by
                              refine sortedStore_sublist hsortf ?_
                              exact (List.dropWhile_sublist _).trans
                                (List.sublist_cons_self _ _)
                            have hldw2 : (t2.dropWhile (sameKeyB f.1.key)).length ≤ m := by
                              have ha : (t2.dropWhile (sameKeyB f.1.key)).length
                                  ≤ t2.length :=
                                (List.dropWhile_sublist _).length_le
                              have hb : (f :: t2).length ≤ t.length := by
                                rw [← hr2]
                                exact (List.dropWhile_sublist _).length_le
                              simp only [List.length_cons] at hb
                              omega
                            obtain ⟨h1, h2, h3, h4⟩ :=
                              ihm (t2.dropWhile (sameKeyB f.1.key)) hldw2 hsortdw2 rem
                            refine ⟨h1, h2, ?_, h4⟩
                            intro p hp
                            obtain ⟨e2, he2, hk2⟩ := h3 p hp
                            have he2t : e2 ∈ t := by
                              have h5 : e2 ∈ t2 := (List.dropWhile_sublist _).subset he2
                              have h6 : e2 ∈ f :: t2 := List.mem_cons_of_mem _ h5
                              rw [← hr2] at h6
                              exact (List.dropWhile_sublist _).subset h6
                            exact ⟨e2, List.mem_cons_of_mem _ he2t, hk2⟩


/-- Well-formedness of one store entry: an intent key stores an encoded
UncommittedValue and a versioned key stores raw bytes (spec section 6). -/
def wfEntryB (e : StoreEntry) : Bool :=
  match e.1.kind, e.2 with
  | .intent, .meta _ => true
  | .version _, .raw _ => true
  | _, _ => false

/-- Well-formedness of the store. -/
def wfStore (l : List StoreEntry) : Prop :=
  ∀ e ∈ l, wfEntryB e = true

theorem wfEntryB_version {e : StoreEntry} {ts : Timestamp}
    (hwf : wfEntryB e = true) (hk : e.1.kind = .version ts) :
    ∃ v, e.2 = .raw v := by
  cases h2 : e.2 with
  | raw v => exact ⟨v, rfl⟩
  | meta uv =>
      unfold wfEntryB at hwf
      rw [hk, h2] at hwf
      cases hwf

theorem tsLeB_refl (a : Timestamp) : tsLeB a a = true := by
  simp [tsLeB]

theorem tsLeB_of_tsLtB {a b : Timestamp} (h : tsLtB a b = true) : tsLeB a b = true := by
  simp [tsLeB, h]

theorem keyLtB_ne {a b : Key} (h : keyLtB a b = true) : a ≠ b := by
  intro hc
  subst hc
  rw [keyLtB_irrefl] at h
  cases h


/-- Soundness of the scan specification: every produced result is a
versioned entry of the store, visible at the read timestamp, and carries
the greatest visible timestamp among the versions of its user key. -/
theorem scanSpec_sound (R : Timestamp) (bound : Key) :
    ∀ (n : Nat) (l : List StoreEntry), l.length ≤ n → sortedStore l → wfStore l →
      ∀ (rem : Nat) (mk : MVCCKey) (v : Value), (mk, v) ∈ (scanSpec R bound rem l).1 →
        (mk, StoredValue.raw v) ∈ l ∧
        ∃ ts, mk.kind = .version ts ∧ tsLeB ts R = true ∧
          ∀ ts2 v2, ((⟨mk.key, .version ts2⟩ : MVCCKey), StoredValue.raw v2) ∈ l →
            tsLeB ts2 R = true → tsLeB ts2 ts = true := by
  intro n
  induction n with
  | zero =>
      intro l hl _ _ rem mk v hmem
      cases l with
      | nil =>
          rw [scanSpec.eq_1] at hmem
          simp at hmem
      | cons e t => simp at hl
  | succ m ihm =>
      intro l hl hsort hwf rem mk v hmem
      cases l with
      | nil =>
          rw [scanSpec.eq_1] at hmem
          simp at hmem
      | cons e t =>
          by_cases hrem : rem = 0
          · subst hrem
            rw [scanSpec_zero] at hmem
            simp at hmem
          · by_cases hstop : keyLtB bound e.1.key = true
            · rw [scanSpec_stop _ _ _ _ _ hstop] at hmem
              simp at hmem
            · have hstop2 : keyLtB bound e.1.key = false := by
                simpa using hstop
              obtain ⟨⟨k, kind⟩, sv⟩ := e
              have hgrpafter := group_after hsort
              have hkne : ∀ y ∈ t.dropWhile (sameKeyB k), y.1.key ≠ k := by
                intro y hy hc
                exact keyLtB_ne (hgrpafter y hy) hc.symm
              have hlt : t.length ≤ m := by
                simp only [List.length_cons] at hl
                omega
              have hldw : (t.dropWhile (sameKeyB k)).length ≤ m := by
                have := (List.dropWhile_sublist (sameKeyB k) (l := t)).length_le
                omega
              have hsortdw : sortedStore (t.dropWhile (sameKeyB k)) :=
                sortedStore_sublist hsort
                  ((List.dropWhile_sublist _).trans (List.sublist_cons_self _ _))
              have hwfdw : wfStore (t.dropWhile (sameKeyB k)) := fun y hy =>
                hwf y (List.mem_cons_of_mem _ ((List.dropWhile_sublist _).subset hy))
              have htsplit : t = t.takeWhile (sameKeyB k) ++ t.dropWhile (sameKeyB k) :=
                (List.takeWhile_append_dropWhile _ _).symm
              cases kind with
              | intent =>
                  rw [scanSpec_intent _ _ _ _ _ _ hrem hstop2] at hmem
                  obtain ⟨hmemr, ts, hkind, hvisr, hmaxr⟩ :=
                    ihm (t.dropWhile (sameKeyB k)) hldw hsortdw hwfdw rem mk v hmem
                  have hmkk : keyLtB k mk.key = true := hgrpafter (mk, .raw v) hmemr
                  refine ⟨List.mem_cons_of_mem _
                    ((List.dropWhile_sublist _).subset hmemr), ts, hkind, hvisr, ?_⟩
                  intro ts2 v2 hymem hyvis
                  rcases List.mem_cons.mp hymem with hye | hyt
                  · exfalso
                    have hkk : k = mk.key := congrArg (fun z => z.1.key) hye.symm
                    exact keyLtB_ne hmkk hkk
                  · rw [htsplit] at hyt
                    rcases List.mem_append.mp hyt with hyw | hyd
                    · exfalso
                      have := group_keys _ hyw
                      exact keyLtB_ne hmkk this.symm
                    · exact hmaxr ts2 v2 hyd hyvis
              | version ts0 =>
                  by_cases hts : tsLeB ts0 R = true
                  · rw [scanSpec_visible _ _ _ _ _ _ _ hrem hstop2 hts] at hmem
                    rcases List.mem_cons.mp hmem with hhead | hrest
                    · obtain ⟨v0, hsv⟩ := @wfEntryB_version _ ts0
                        (hwf _ (List.mem_cons_self _ _)) rfl
                      have hsv2 : sv = StoredValue.raw v0 := hsv
                      injection hhead with hmk hv
                      subst hmk
                      have hv0 : v = v0 := by
                        rw [hsv2] at hv
                        simpa [StoredValue.asRaw] using hv
                      refine ⟨?_, ts0, rfl, hts, ?_⟩
                      · rw [hv0, ← hsv2]
                        exact List.mem_cons_self _ _
                      · intro ts2 v2 hymem hyvis
                        rcases List.mem_cons.mp hymem with hye | hyt
                        · have h1 : (⟨k, MKind.version ts0⟩ : MVCCKey)
                              = ⟨k, .version ts2⟩ := congrArg Prod.fst hye.symm
                          injection h1 with _ h2
                          injection h2 with h3
                          rw [← h3]
                          exact tsLeB_refl ts0
                        · rw [htsplit] at hyt
                          rcases List.mem_append.mp hyt with hyw | hyd
                          · obtain ⟨tsy, hykind, hylt⟩ :=
                              group_versions hsort rfl _ hyw
                            have h4 : MKind.version ts2 = .version tsy := hykind
                            injection h4 with h5
                            rw [h5]
                            exact tsLeB_of_tsLtB hylt
                          · exfalso
                            exact hkne _ hyd rfl
                    · obtain ⟨hmemr, ts, hkind, hvisr, hmaxr⟩ :=
                        ihm (t.dropWhile (sameKeyB k)) hldw hsortdw hwfdw (rem - 1)
                          mk v hrest
                      have hmkk : keyLtB k mk.key = true :=
                        hgrpafter (mk, .raw v) hmemr
                      refine ⟨List.mem_cons_of_mem _
                        ((List.dropWhile_sublist _).subset hmemr),
                        ts, hkind, hvisr, ?_⟩
                      intro ts2 v2 hymem hyvis
                      rcases List.mem_cons.mp hymem with hye | hyt
                      · exfalso
                        have hkk : k = mk.key := congrArg (fun z => z.1.key) hye.symm
                        exact keyLtB_ne hmkk hkk
                      · rw [htsplit] at hyt
                        rcases List.mem_append.mp hyt with hyw | hyd
                        · exfalso
                          have := group_keys _ hyw
                          exact keyLtB_ne hmkk this.symm
                        · exact hmaxr ts2 v2 hyd hyvis
                  · have hts2 : tsLeB ts0 R = false := by
                      simpa using hts
                    cases hfind : (t.takeWhile (sameKeyB k)).find?
                        (fun y => tsLeB y.1.timestamp R) with
                    | some x =>
                        have hxmem : x ∈ t.takeWhile (sameKeyB k) :=
                          List.mem_of_find?_eq_some hfind
                        have hxkey : x.1.key = k := group_keys x hxmem
                        obtain ⟨tsx, hxkind, hxlt⟩ := group_versions hsort rfl x hxmem
                        have hxts : x.1.timestamp = tsx := by
                          simp [MVCCKey.timestamp, hxkind]
                        have hxvis : tsLeB tsx R = true := by
                          have := List.find?_some hfind
                          rw [hxts] at this
                          exact this
                        have hxl : x ∈ (((⟨k, MKind.version ts0⟩ : MVCCKey), sv) :: t) :=
                          List.mem_cons_of_mem _ ((List.takeWhile_sublist _).subset hxmem)
                        obtain ⟨vx, hsvx⟩ := wfEntryB_version (hwf x hxl) hxkind
                        rw [scanSpec_invisible_found _ _ _ _ _ _ _ _ hrem hstop2
                          hts2 hfind] at hmem
                        rcases List.mem_cons.mp hmem with hhead | hrest
                        · injection hhead with hmk hv
                          subst hmk
                          have hvvx : v = vx := by
                            rw [hsvx] at hv
                            simpa [StoredValue.asRaw] using hv
                          refine ⟨?_, tsx, hxkind, hxvis, ?_⟩
                          · have hxeta : ((x.1, StoredValue.raw vx) : StoreEntry) = x := by
                              rw [← hsvx]
                            rw [hvvx, hxeta]
                            exact hxl
                          · intro ts2 v2 hymem hyvis
                            rcases List.mem_cons.mp hymem with hye | hyt
                            · exfalso
                              have h1 : (⟨k, MKind.version ts0⟩ : MVCCKey)
                                  = ⟨x.1.key, .version ts2⟩ := congrArg Prod.fst hye.symm
                              injection h1 with _ h2
                              injection h2 with h3
                              rw [← h3] at hyvis
                              rw [hyvis] at hts2
                              cases hts2
                            · rw [htsplit] at hyt
                              rcases List.mem_append.mp hyt with hyw | hyd
                              · obtain ⟨hqx, as, bs, hgdec, has⟩ :=
                                  List.find?_eq_some.mp hfind
                                rw [hgdec] at hyw
                                rcases List.mem_append.mp hyw with hya | hyxb
                                · exfalso
                                  have hqa := has _ hya
                                  simp only [Bool.not_eq_true'] at hqa
                                  have : MVCCKey.timestamp
                                      ⟨x.1.key, .version ts2⟩ = ts2 := by
                                    simp [MVCCKey.timestamp]
                                  rw [this] at hqa
                                  rw [hqa] at hyvis
                                  cases hyvis
                                · rcases List.mem_cons.mp hyxb with hyx | hyb
                                  · have h1 : x.1 = ⟨x.1.key, .version ts2⟩ :=
                                      congrArg Prod.fst hyx.symm
                                    have h2 : MKind.version tsx = .version ts2 := by
                                      rw [← hxkind]
                                      exact congrArg MVCCKey.kind h1
                                    injection h2 with h3
                                    rw [← h3]
                                    exact tsLeB_refl tsx
                                  · have hsortg : sortedStore
                                        (t.takeWhile (sameKeyB k)) :=
                                      sortedStore_sublist hsort
                                        ((List.takeWhile_sublist _).trans
                                          (List.sublist_cons_self _ _))
                                    rw [hgdec] at hsortg
                                    have hsortxb : sortedStore (x :: bs) :=
                                      sortedStore_sublist hsortg
                                        (List.suffix_append as (x :: bs)).sublist
                                    have hxy : mvccLtB x.1
                                        (⟨x.1.key, .version ts2⟩ : MVCCKey) = true :=
                                      (List.pairwise_cons.mp hsortxb).1 _ hyb
                                    have hkd : kindLtB x.1.kind
                                        (MKind.version ts2) = true := by
                                      simpa [mvccLtB, keyLtB_irrefl] using hxy
                                    rw [hxkind] at hkd
                                    exact tsLeB_of_tsLtB hkd
                              · exfalso
                                exact hkne _ hyd hxkey
                        · obtain ⟨hmemr, ts, hkind, hvisr, hmaxr⟩ :=
                            ihm (t.dropWhile (sameKeyB k)) hldw hsortdw hwfdw
                              (rem - 1) mk v hrest
                          have hmkk : keyLtB k mk.key = true :=
                            hgrpafter (mk, .raw v) hmemr
                          refine ⟨List.mem_cons_of_mem _
                            ((List.dropWhile_sublist _).subset hmemr),
                            ts, hkind, hvisr, ?_⟩
                          intro ts2 v2 hymem hyvis
                          rcases List.mem_cons.mp hymem with hye | hyt
                          · exfalso
                            have hkk : k = mk.key :=
                              congrArg (fun z => z.1.key) hye.symm
                            exact keyLtB_ne hmkk hkk
                          · rw [htsplit] at hyt
                            rcases List.mem_append.mp hyt with hyw | hyd
                            · exfalso
                              have := group_keys _ hyw
                              exact keyLtB_ne hmkk this.symm
                            · exact hmaxr ts2 v2 hyd hyvis
                    | none =>
                        cases hr2 : t.dropWhile (sameKeyB k) with
                        | nil =>
                            rw [scanSpec_invisible_skip_nil _ _ _ _ _ _ _ hrem
                              hstop2 hts2 hfind hr2] at hmem
                            simp at hmem
                        | cons f t2 =>
                            rw [scanSpec_invisible_skip_cons _ _ _ _ _ _ _ _ _ hrem
                              hstop2 hts2 hfind hr2] at hmem
                            have hsortf : sortedStore (f :: t2) := by
                              rw [← hr2]
                              exact hsortdw
                            have hwff : wfStore (f :: t2) := by
                              rw [← hr2]
                              exact hwfdw
                            have hsortdw2 : sortedStore
                                (t2.dropWhile (sameKeyB f.1.key)) :=
                              sortedStore_sublist hsortf
                                ((List.dropWhile_sublist _).trans
                                  (List.sublist_cons_self _ _))
                            have hwfdw2 : wfStore (t2.dropWhile (sameKeyB f.1.key)) :=
                              fun y hy => hwff y (List.mem_cons_of_mem _
                                ((List.dropWhile_sublist _).subset hy))
                            have hldw2 : (t2.dropWhile (sameKeyB f.1.key)).length
                                ≤ m := by
                              have ha : (t2.dropWhile (sameKeyB f.1.key)).length
                                  ≤ t2.length :=
                                (List.dropWhile_sublist _).length_le
                              have hb : (f :: t2).length ≤ t.length := by
                                rw [← hr2]
                                exact (List.dropWhile_sublist _).length_le
                              simp only [List.length_cons] at hb
                              omega
                            obtain ⟨hmemr, ts, hkind, hvisr, hmaxr⟩ :=
                              ihm (t2.dropWhile (sameKeyB f.1.key)) hldw2 hsortdw2
                                hwfdw2 rem mk v hmem
                            have hgrpafter2 := group_after hsortf
                            have hfm : keyLtB f.1.key mk.key = true :=
                              hgrpafter2 (mk, .raw v) hmemr
                            have hkf : keyLtB k f.1.key = true := by
                              apply hgrpafter
                              rw [hr2]
                              exact List.mem_cons_self _ _
                            have hmkk : keyLtB k mk.key = true :=
                              keyLtB_trans hkf hfm
                            have hmemf : (mk, StoredValue.raw v) ∈ f :: t2 :=
                              List.mem_cons_of_mem _
                                ((List.dropWhile_sublist _).subset hmemr)
                            have hmeml : (mk, StoredValue.raw v)
                                ∈ (((⟨k, MKind.version ts0⟩ : MVCCKey), sv) :: t) := by
                              refine List.mem_cons_of_mem _ ?_
                              have h6 : (mk, StoredValue.raw v)
                                  ∈ t.dropWhile (sameKeyB k) := by
                                rw [hr2]
                                exact hmemf
                              exact (List.dropWhile_sublist _).subset h6
                            refine ⟨hmeml, ts, hkind, hvisr, ?_⟩
                            intro ts2 v2 hymem hyvis
                            have ht2split : t2 = t2.takeWhile (sameKeyB f.1.key)
                                ++ t2.dropWhile (sameKeyB f.1.key) :=
                              (List.takeWhile_append_dropWhile _ _).symm
                            rcases List.mem_cons.mp hymem with hye | hyt
                            · exfalso
                              have hkk : k = mk.key :=
                                congrArg (fun z => z.1.key) hye.symm
                              exact keyLtB_ne hmkk hkk
                            · rw [htsplit] at hyt
                              rcases List.mem_append.mp hyt with hyw | hyd
                              · exfalso
                                have := group_keys _ hyw
                                exact keyLtB_ne hmkk this.symm
                              · rw [hr2] at hyd
                                rcases List.mem_cons.mp hyd with hyf | hyt2
                                · exfalso
                                  have hkk : f.1.key = mk.key :=
                                    congrArg (fun z => z.1.key) hyf.symm
                                  exact keyLtB_ne hfm hkk
                                · rw [ht2split] at hyt2
                                  rcases List.mem_append.mp hyt2 with hyw2 | hyd2
                                  · exfalso
                                    have := group_keys _ hyw2
                                    exact keyLtB_ne hfm this.symm
                                  · exact hmaxr ts2 v2 hyd2 hyvis


/-- In a sorted store every entry below the start boundary has a strictly
smaller key than every entry at or above it. -/
theorem takeWhile_key_lt_dropWhile (full : List StoreEntry) (start_key : Key)
    (hsort : sortedStore full) :
    ∀ x ∈ full.takeWhile (fun e => keyLtB e.1.key start_key),
      ∀ f ∈ full.dropWhile (fun e => keyLtB e.1.key start_key),
        keyLtB x.1.key f.1.key = true := by
  intro x hx f hf
  have hxlt : keyLtB x.1.key start_key = true := by
    have := List.mem_takeWhile_imp hx
    simpa using this
  cases hdwe : full.dropWhile (fun e => keyLtB e.1.key start_key) with
  | nil =>
      rw [hdwe] at hf
      cases hf
  | cons f0 rest =>
      have hf0 : keyLtB f0.1.key start_key = false := by
        have h2 := List.head?_dropWhile_not (fun e => keyLtB e.1.key start_key) full
        rw [hdwe] at h2
        simpa using h2
      have hxf0 : keyLtB x.1.key f0.1.key = true :=
        keyLtB_lt_of_lt_of_nlt hxlt hf0
      rw [hdwe] at hf
      rcases List.mem_cons.mp hf with rfl | hf2
      · exact hxf0
      · have hsortdw : sortedStore (f0 :: rest) := by
          rw [← hdwe]
          exact sortedStore_sublist hsort (List.dropWhile_sublist _)
        have hff0 : keyLtB f.1.key f0.1.key = false :=
          mvccLtB_key_le ((List.pairwise_cons.mp hsortdw).1 f hf2)
        exact keyLtB_lt_of_lt_of_nlt hxf0 hff0

/-- A list with strictly ascending keys holds at most one element per key. -/
theorem pairwise_key_unique :
    ∀ (l : List (MVCCKey × Value)),
      List.Pairwise (fun a b => keyLtB a.1.key b.1.key = true) l →
      ∀ p ∈ l, ∀ q ∈ l, p.1.key = q.1.key → p = q
  | [], _, p, hp, _, _, _ => absurd hp (by simp)
  | a :: rest, hpw, p, hp, q, hq, heq => by
      obtain ⟨ha, hrest⟩ := List.pairwise_cons.mp hpw
      rcases List.mem_cons.mp hp with rfl | hp2
      · rcases List.mem_cons.mp hq with rfl | hq2
        · rfl
        · exact absurd heq (keyLtB_ne (ha q hq2))
      · rcases List.mem_cons.mp hq with rfl | hq2
        · exact absurd heq.symm (keyLtB_ne (ha p hp2))
        · exact pairwise_key_unique rest hrest p hp2 q hq2 heq


/-- C1 counterexample: a scan over purely versioned (non-intent) keys at
read timestamp (10,0) over the sorted store
[ ([0], ts (20,0)) mapped to [1], ([1], ts (5,0)) mapped to [2] ] from
start key [0] to end key [1] with room for 10 records returns no result at
all, although user key [1] has the version (5,0) at or below the read
timestamp inside the scanned range: after the failed seek on key [0] the
iterator stands on key [1] and advance_to_next_key skips it, so the claim
that every scanned user key yields its greatest visible version is false
as stated. -/
theorem c1_counterexample :
    sortedStore [((⟨[0], .version ⟨20, 0⟩⟩ : MVCCKey), StoredValue.raw [1]),
        ((⟨[1], .version ⟨5, 0⟩⟩ : MVCCKey), StoredValue.raw [2])]
    ∧ tsLeB ⟨5, 0⟩ ⟨10, 0⟩ = true
    ∧ keyLtB [1] [1] = false
    ∧ ((MVCCScanner.new
          ⟨[((⟨[0], .version ⟨20, 0⟩⟩ : MVCCKey), StoredValue.raw [1]),
            ((⟨[1], .version ⟨5, 0⟩⟩ : MVCCKey), StoredValue.raw [2])],
            [((⟨[0], .version ⟨20, 0⟩⟩ : MVCCKey), StoredValue.raw [1]),
            ((⟨[1], .version ⟨5, 0⟩⟩ : MVCCKey), StoredValue.raw [2])]⟩
          [0] (some [1]) ⟨10, 0⟩ 10 none).scan).results = [] := by
  refine ⟨?_, by decide, by decide, by rfl⟩
  unfold sortedStore
  refine List.pairwise_cons.mpr ⟨?_, ?_⟩
  · intro b hb
    rcases List.mem_cons.mp hb with rfl | hb2
    · decide
    · cases hb2
  · refine List.pairwise_cons.mpr ⟨?_, List.Pairwise.nil⟩
    intro b hb
    cases hb

/-- C1 (amended): over a sorted, well-formed store, every result the
scanner returns is a versioned entry of the store visible at the read
timestamp and carries the greatest timestamp at or below the read
timestamp among all versions of its user key (so a user key all of whose
versions are newer than the read timestamp never yields a result); and
the full result list equals the amended per-key specification scanSpec, in
which a user key whose group holds no visible version is processed without
a result and the immediately following user key is skipped. -/
theorem c1_scan_read_visibility (full : List StoreEntry) (start_key : Key)
    (end_key : Option Key) (R : Timestamp) (maxc : Nat) (txn : Option Txn)
    (hsort : sortedStore full) (hwf : wfStore full) :
    (∀ mk v, (mk, v) ∈
        ((MVCCScanner.new ⟨full, full⟩ start_key end_key R maxc txn).scan).results →
      (mk, StoredValue.raw v) ∈ full ∧
      ∃ ts, mk.kind = .version ts ∧ tsLeB ts R = true ∧
        ∀ ts2 v2, ((⟨mk.key, .version ts2⟩ : MVCCKey), StoredValue.raw v2) ∈ full →
          tsLeB ts2 R = true → tsLeB ts2 ts = true) ∧
    ((MVCCScanner.new ⟨full, full⟩ start_key end_key R maxc txn).scan).results
      = (scanSpec R (end_key.getD start_key) maxc
          (full.dropWhile (fun e => keyLtB e.1.key start_key))).1 := by
  have heq := (scan_eq_scanSpec full start_key end_key R maxc txn hsort).1
  refine ⟨?_, heq⟩
  intro mk v hres
  rw [heq] at hres
  have hsortdw : sortedStore (full.dropWhile (fun e => keyLtB e.1.key start_key)) :=
    sortedStore_sublist hsort (List.dropWhile_sublist _)
  have hwfdw : wfStore (full.dropWhile (fun e => keyLtB e.1.key start_key)) :=
    fun y hy => hwf y ((List.dropWhile_sublist _).subset hy)
  obtain ⟨hmem, ts, hkind, hvis, hmax⟩ := scanSpec_sound R (end_key.getD start_key)
    (full.dropWhile (fun e => keyLtB e.1.key start_key)).length
    (full.dropWhile (fun e => keyLtB e.1.key start_key)) le_rfl hsortdw hwfdw
    maxc mk v hres
  refine ⟨(List.dropWhile_sublist _).subset hmem, ts, hkind, hvis, ?_⟩
  intro ts2 v2 hymem hyvis
  have hsplit : full = full.takeWhile (fun e => keyLtB e.1.key start_key)
      ++ full.dropWhile (fun e => keyLtB e.1.key start_key) :=
    (List.takeWhile_append_dropWhile _ _).symm
  rw [hsplit] at hymem
  rcases List.mem_append.mp hymem with hyw | hyd
  · exfalso
    have hlt := takeWhile_key_lt_dropWhile full start_key hsort _ hyw (mk, .raw v) hmem
    exact keyLtB_ne hlt rfl
  · exact hmax ts2 v2 hyd hyvis

/-- C1 witness: the amended visibility theorem applied at a concrete
one-entry store. -/
theorem c1_scan_read_visibility_witness :
    (∀ mk v, (mk, v) ∈
        ((MVCCScanner.new
            ⟨[((⟨[0], .version ⟨5, 0⟩⟩ : MVCCKey), StoredValue.raw [7])],
              [((⟨[0], .version ⟨5, 0⟩⟩ : MVCCKey), StoredValue.raw [7])]⟩
            [0] none ⟨10, 0⟩ 1 none).scan).results →
      (mk, StoredValue.raw v)
          ∈ [((⟨[0], .version ⟨5, 0⟩⟩ : MVCCKey), StoredValue.raw [7])] ∧
      ∃ ts, mk.kind = .version ts ∧ tsLeB ts ⟨10, 0⟩ = true ∧
        ∀ ts2 v2, ((⟨mk.key, .version ts2⟩ : MVCCKey), StoredValue.raw v2)
            ∈ [((⟨[0], .version ⟨5, 0⟩⟩ : MVCCKey), StoredValue.raw [7])] →
          tsLeB ts2 ⟨10, 0⟩ = true → tsLeB ts2 ts = true) ∧
    ((MVCCScanner.new
        ⟨[((⟨[0], .version ⟨5, 0⟩⟩ : MVCCKey), StoredValue.raw [7])],
          [((⟨[0], .version ⟨5, 0⟩⟩ : MVCCKey), StoredValue.raw [7])]⟩
        [0] none ⟨10, 0⟩ 1 none).scan).results
      = (scanSpec ⟨10, 0⟩ ((none : Option Key).getD [0]) 1
          ([((⟨[0], .version ⟨5, 0⟩⟩ : MVCCKey), StoredValue.raw [7])].dropWhile
            (fun e => keyLtB e.1.key [0]))).1 :=
  c1_scan_read_visibility
    [((⟨[0], .version ⟨5, 0⟩⟩ : MVCCKey), StoredValue.raw [7])] [0] none ⟨10, 0⟩ 1 none
    (by
      unfold sortedStore
      refine List.pairwise_cons.mpr ⟨?_, List.Pairwise.nil⟩
      intro b hb
      cases hb)
    (by
      intro e he
      rcases List.mem_cons.mp he with rfl | he2
      · decide
      · cases he2)


/-- C7: over a sorted store, every scan returns at most max_records_count
results, the result user keys are strictly ascending (hence at most one
version per user key appears), and no result lies past end_key (past
start_key when no end_key is given). -/
theorem c7_scan_shape (full : List StoreEntry) (start_key : Key)
    (end_key : Option Key) (R : Timestamp) (maxc : Nat) (txn : Option Txn)
    (hsort : sortedStore full) :
    ((MVCCScanner.new ⟨full, full⟩ start_key end_key R maxc txn).scan).results.length
        ≤ maxc ∧
    List.Pairwise (fun a b => keyLtB a.1.key b.1.key = true)
      ((MVCCScanner.new ⟨full, full⟩ start_key end_key R maxc txn).scan).results ∧
    (∀ p ∈ ((MVCCScanner.new ⟨full, full⟩ start_key end_key R maxc txn).scan).results,
      ∀ q ∈ ((MVCCScanner.new ⟨full, full⟩ start_key end_key R maxc txn).scan).results,
        p.1.key = q.1.key → p = q) ∧
    (∀ p ∈ ((MVCCScanner.new ⟨full, full⟩ start_key end_key R maxc txn).scan).results,
      keyLtB (end_key.getD start_key) p.1.key = false) := by
  have heq := (scan_eq_scanSpec full start_key end_key R maxc txn hsort).1
  have hsortdw : sortedStore (full.dropWhile (fun e => keyLtB e.1.key start_key)) :=
    sortedStore_sublist hsort (List.dropWhile_sublist _)
  obtain ⟨h1, h2, _, h4⟩ := scanSpec_shape R (end_key.getD start_key)
    (full.dropWhile (fun e => keyLtB e.1.key start_key)).length
    (full.dropWhile (fun e => keyLtB e.1.key start_key)) le_rfl hsortdw maxc
  rw [heq]
  exact ⟨h1, h4, pairwise_key_unique _ h4, h2⟩

/-- C7 witness: the shape theorem applied at a concrete two-entry store. -/
theorem c7_scan_shape_witness :
    ((MVCCScanner.new
        ⟨[((⟨[0], .version ⟨5, 0⟩⟩ : MVCCKey), StoredValue.raw [7]),
          ((⟨[2], .version ⟨6, 0⟩⟩ : MVCCKey), StoredValue.raw [8])],
          [((⟨[0], .version ⟨5, 0⟩⟩ : MVCCKey), StoredValue.raw [7]),
          ((⟨[2], .version ⟨6, 0⟩⟩ : MVCCKey), StoredValue.raw [8])]⟩
        [0] (some [2]) ⟨10, 0⟩ 5 none).scan).results.length ≤ 5 ∧
    List.Pairwise (fun a b => keyLtB a.1.key b.1.key = true)
      ((MVCCScanner.new
        ⟨[((⟨[0], .version ⟨5, 0⟩⟩ : MVCCKey), StoredValue.raw [7]),
          ((⟨[2], .version ⟨6, 0⟩⟩ : MVCCKey), StoredValue.raw [8])],
          [((⟨[0], .version ⟨5, 0⟩⟩ : MVCCKey), StoredValue.raw [7]),
          ((⟨[2], .version ⟨6, 0⟩⟩ : MVCCKey), StoredValue.raw [8])]⟩
        [0] (some [2]) ⟨10, 0⟩ 5 none).scan).results ∧
    (∀ p ∈ ((MVCCScanner.new
        ⟨[((⟨[0], .version ⟨5, 0⟩⟩ : MVCCKey), StoredValue.raw [7]),
          ((⟨[2], .version ⟨6, 0⟩⟩ : MVCCKey), StoredValue.raw [8])],
          [((⟨[0], .version ⟨5, 0⟩⟩ : MVCCKey), StoredValue.raw [7]),
          ((⟨[2], .version ⟨6, 0⟩⟩ : MVCCKey), StoredValue.raw [8])]⟩
        [0] (some [2]) ⟨10, 0⟩ 5 none).scan).results,
      ∀ q ∈ ((MVCCScanner.new
        ⟨[((⟨[0], .version ⟨5, 0⟩⟩ : MVCCKey), StoredValue.raw [7]),
          ((⟨[2], .version ⟨6, 0⟩⟩ : MVCCKey), StoredValue.raw [8])],
          [((⟨[0], .version ⟨5, 0⟩⟩ : MVCCKey), StoredValue.raw [7]),
          ((⟨[2], .version ⟨6, 0⟩⟩ : MVCCKey), StoredValue.raw [8])]⟩
        [0] (some [2]) ⟨10, 0⟩ 5 none).scan).results,
        p.1.key = q.1.key → p = q) ∧
    (∀ p ∈ ((MVCCScanner.new
        ⟨[((⟨[0], .version ⟨5, 0⟩⟩ : MVCCKey), StoredValue.raw [7]),
          ((⟨[2], .version ⟨6, 0⟩⟩ : MVCCKey), StoredValue.raw [8])],
          [((⟨[0], .version ⟨5, 0⟩⟩ : MVCCKey), StoredValue.raw [7]),
          ((⟨[2], .version ⟨6, 0⟩⟩ : MVCCKey), StoredValue.raw [8])]⟩
        [0] (some [2]) ⟨10, 0⟩ 5 none).scan).results,
      keyLtB ((some [2] : Option Key).getD [0]) p.1.key = false) :=
  c7_scan_shape
    [((⟨[0], .version ⟨5, 0⟩⟩ : MVCCKey), StoredValue.raw [7]),
      ((⟨[2], .version ⟨6, 0⟩⟩ : MVCCKey), StoredValue.raw [8])]
    [0] (some [2]) ⟨10, 0⟩ 5 none
    (by
      unfold sortedStore
      refine List.pairwise_cons.mpr ⟨?_, ?_⟩
      · intro b hb
        rcases List.mem_cons.mp hb with rfl | hb2
        · decide
        · cases hb2
      · refine List.pairwise_cons.mpr ⟨?_, List.Pairwise.nil⟩
        intro b hb
        cases hb)

/-- C8: positioned on an intent key, get_current_key appends the intent
together with its uncommitted value to found_intents, adds nothing to the
results, and behaves identically for every scanner transaction, whether or
not the intent belongs to the scanning transaction itself. -/
theorem c8_intent_recorded (s : MVCCScanner) (k : Key) (uv : UncommittedValue)
    (t : List StoreEntry) (h : s.it.curs = (⟨k, .intent⟩, .meta uv) :: t) :
    s.get_current_key = (false, { s with found_intents := s.found_intents
        ++ [(⟨uv.txn_metadata, k⟩, uv.value)] }) ∧
    (s.get_current_key).2.results = s.results ∧
    ∀ txn2 : Option Txn,
      (({ s with txn := txn2 } : MVCCScanner).get_current_key).1 = false ∧
      (({ s with txn := txn2 } : MVCCScanner).get_current_key).2.found_intents
        = s.found_intents ++ [(⟨uv.txn_metadata, k⟩, uv.value)] ∧
      (({ s with txn := txn2 } : MVCCScanner).get_current_key).2.results = s.results := by
  have h0 := get_current_key_intent s k (.meta uv) t h
  refine ⟨h0, by rw [h0], ?_⟩
  intro txn2
  have h2 := get_current_key_intent ({ s with txn := txn2 } : MVCCScanner) k
    (.meta uv) t (by exact h)
  rw [h2]
  exact ⟨rfl, rfl, rfl⟩

/-- C8 witness: the intent-recording theorem at a concrete scanner whose
cursor stands on an intent of another transaction. -/
theorem c8_intent_recorded_witness :
    (MVCCScanner.new
        ⟨[((⟨[0], .intent⟩ : MVCCKey), StoredValue.meta ⟨[9], ⟨7, ⟨9, 0⟩⟩⟩)],
          [((⟨[0], .intent⟩ : MVCCKey), StoredValue.meta ⟨[9], ⟨7, ⟨9, 0⟩⟩⟩)]⟩
        [0] none ⟨10, 0⟩ 5 none).get_current_key
      = (false, { MVCCScanner.new
          ⟨[((⟨[0], .intent⟩ : MVCCKey), StoredValue.meta ⟨[9], ⟨7, ⟨9, 0⟩⟩⟩)],
            [((⟨[0], .intent⟩ : MVCCKey), StoredValue.meta ⟨[9], ⟨7, ⟨9, 0⟩⟩⟩)]⟩
          [0] none ⟨10, 0⟩ 5 none with
            found_intents := ([] : List (TxnIntent × Value))
              ++ [(⟨⟨7, ⟨9, 0⟩⟩, [0]⟩, [9])] }) ∧
    ((MVCCScanner.new
        ⟨[((⟨[0], .intent⟩ : MVCCKey), StoredValue.meta ⟨[9], ⟨7, ⟨9, 0⟩⟩⟩)],
          [((⟨[0], .intent⟩ : MVCCKey), StoredValue.meta ⟨[9], ⟨7, ⟨9, 0⟩⟩⟩)]⟩
        [0] none ⟨10, 0⟩ 5 none).get_current_key).2.results = [] ∧
    ∀ txn2 : Option Txn,
      (({ MVCCScanner.new
          ⟨[((⟨[0], .intent⟩ : MVCCKey), StoredValue.meta ⟨[9], ⟨7, ⟨9, 0⟩⟩⟩)],
            [((⟨[0], .intent⟩ : MVCCKey), StoredValue.meta ⟨[9], ⟨7, ⟨9, 0⟩⟩⟩)]⟩
          [0] none ⟨10, 0⟩ 5 none with txn := txn2 } :
            MVCCScanner).get_current_key).1 = false ∧
      (({ MVCCScanner.new
          ⟨[((⟨[0], .intent⟩ : MVCCKey), StoredValue.meta ⟨[9], ⟨7, ⟨9, 0⟩⟩⟩)],
            [((⟨[0], .intent⟩ : MVCCKey), StoredValue.meta ⟨[9], ⟨7, ⟨9, 0⟩⟩⟩)]⟩
          [0] none ⟨10, 0⟩ 5 none with txn := txn2 } :
            MVCCScanner).get_current_key).2.found_intents
        = ([] : List (TxnIntent × Value)) ++ [(⟨⟨7, ⟨9, 0⟩⟩, [0]⟩, [9])] ∧
      (({ MVCCScanner.new
          ⟨[((⟨[0], .intent⟩ : MVCCKey), StoredValue.meta ⟨[9], ⟨7, ⟨9, 0⟩⟩⟩)],
            [((⟨[0], .intent⟩ : MVCCKey), StoredValue.meta ⟨[9], ⟨7, ⟨9, 0⟩⟩⟩)]⟩
          [0] none ⟨10, 0⟩ 5 none with txn := txn2 } :
            MVCCScanner).get_current_key).2.results = [] :=
  c8_intent_recorded
    (MVCCScanner.new
      ⟨[((⟨[0], .intent⟩ : MVCCKey), StoredValue.meta ⟨[9], ⟨7, ⟨9, 0⟩⟩⟩)],
        [((⟨[0], .intent⟩ : MVCCKey), StoredValue.meta ⟨[9], ⟨7, ⟨9, 0⟩⟩⟩)]⟩
      [0] none ⟨10, 0⟩ 5 none)
    [0] ⟨[9], ⟨7, ⟨9, 0⟩⟩⟩
    [] rfl


/-- Guard wait states of the lock table (spec section 3; lock_table.rs is
not under src/). -/
inductive WaitingState where
  | Waiting : WaitingState
  | DoneWaiting : WaitingState
  | WaitFor : Nat → WaitingState
  | WaitForDistinguished : Nat → WaitingState
deriving DecidableEq, Repr

/-- Modelled from the spec: LockTableGuard of lock_table.rs (not under
src/), a guard id, the transaction, whether the request is read-only, and
the wait state (spec section 3). -/
structure LockTableGuard where
  guard_id : Nat
  txn : Txn
  is_read_only : Bool
  wait_state : WaitingState
deriving DecidableEq, Repr

/-- Modelled from the spec: LockState of lock_table.rs (not under src/) for
one key: holder, reservation, FIFO queued writers and waiting readers
(spec section 3). -/
structure LockState where
  lock_holder : Option TxnMetadata
  reservation : Option LockTableGuard
  queued_writers : List LockTableGuard
  waiting_readers : List LockTableGuard
deriving DecidableEq, Repr

/-- Request kinds relevant to the lock table. -/
inductive RequestKind where
  | get : RequestKind
  | put : RequestKind
deriving DecidableEq, Repr

/-- A request as the lock table sees it: its transaction and kind. -/
structure Request where
  txn : Txn
  kind : RequestKind
deriving DecidableEq, Repr

namespace LockTable

/-- Modelled from the spec: scan_and_enqueue of lock_table.rs (not under
src/), for the single key the request touches (spec section 4.3). The
fresh guard UUID is supplied by the caller as gid. With no lock state or an
effectively empty one the guard is DoneWaiting and nothing waits; a read
below the holder write timestamp passes through without enqueueing; a read
at or above it joins waiting_readers; a write is appended at the tail of
queued_writers. -/
def scan_and_enqueue (gid : Nat) (req : Request) (ls : Option LockState) :
    Bool × LockTableGuard × Option LockState :=
  let is_read_only : Bool :=
    match req.kind with
    | .get => true
    | .put => false
  let g : LockTableGuard := ⟨gid, req.txn, is_read_only, .Waiting⟩
  match ls with
  | none => (false, { g with wait_state := .DoneWaiting }, none)
  | some st =>
    match st.lock_holder with
    | some holder =>
        if is_read_only then
          if tsLtB req.txn.read_timestamp holder.write_timestamp then
            (false, { g with wait_state := .DoneWaiting }, some st)
          else
            (true, g, some { st with waiting_readers := st.waiting_readers ++ [g] })
        else
          (true, g, some { st with queued_writers := st.queued_writers ++ [g] })
    | none =>
        match st.reservation with
        | some r =>
            if is_read_only then
              if tsLeB r.txn.metadata.write_timestamp req.txn.read_timestamp then
                (true, g, some { st with waiting_readers := st.waiting_readers ++ [g] })
              else
                (false, { g with wait_state := .DoneWaiting }, some st)
            else
              (true, g, some { st with queued_writers := st.queued_writers ++ [g] })
        | none => (false, { g with wait_state := .DoneWaiting }, some st)

/-- Modelled from the spec: add_discovered_lock of lock_table.rs (not under
src/): a new LockState whose holder is the intent owner, with the
discovering guard enqueued as writer or waiting reader in Waiting state
(spec section 4.3, validated against lock_table_test.rs). -/
def add_discovered_lock (g : LockTableGuard) (intent : TxnIntent) : LockState :=
  let gw := { g with wait_state := WaitingState.Waiting }
  if g.is_read_only then
    { lock_holder := some intent.txn_meta, reservation := none,
      queued_writers := [], waiting_readers := [gw] }
  else
    { lock_holder := some intent.txn_meta, reservation := none,
      queued_writers := [gw], waiting_readers := [] }

/-- Modelled from the spec: update_locks of lock_table.rs (not under src/)
for one LockState held by the finalized transaction (spec section 4.3;
the caller selects the lock states held by finalized_txn). The holder is
cleared, all waiting readers are woken to DoneWaiting and leave the lock
(returned as the third component), the head queued writer if any becomes
the reservation in DoneWaiting while the rest stay queued, and can_gc is
returned exactly when nothing remains. -/
def update_locks (finalized_txn : Txn) (st : LockState) :
    Bool × LockState × List LockTableGuard :=
  let woken := st.waiting_readers.map
    (fun g => { g with wait_state := WaitingState.DoneWaiting })
  match st.queued_writers with
  | w :: rest =>
      (false,
        { lock_holder := none,
          reservation := some { w with wait_state := WaitingState.DoneWaiting },
          queued_writers := rest, waiting_readers := [] }, woken)
  | [] =>
      (true,
        { lock_holder := none, reservation := none,
          queued_writers := [], waiting_readers := [] }, woken)

end LockTable


/-- C3: a read request whose read timestamp is strictly below the lock
holder write timestamp neither waits nor enqueues: should_wait is false,
the guard is DoneWaiting, and the lock state, holder and queues included,
is returned unchanged. -/
theorem c3_reader_below_holder_passes (gid : Nat) (req : Request)
    (st : LockState) (holder : TxnMetadata)
    (hreq : req.kind = .get)
    (hhold : st.lock_holder = some holder)
    (hts : tsLtB req.txn.read_timestamp holder.write_timestamp = true) :
    LockTable.scan_and_enqueue gid req (some st)
      = (false, ⟨gid, req.txn, true, .DoneWaiting⟩, some st) := by
  unfold LockTable.scan_and_enqueue
  rw [hreq]
  dsimp only
  rw [hhold]
  dsimp only
  simp [hts]

/-- C3 witness: the pass-through theorem at a concrete reader below a
concrete holder. -/
theorem c3_reader_below_holder_passes_witness :
    LockTable.scan_and_enqueue 5
        ⟨⟨1, ⟨1, ⟨1, 1⟩⟩, ⟨1, 1⟩⟩, .get⟩
        (some ⟨some ⟨2, ⟨2, 2⟩⟩, none, [⟨4, ⟨3, ⟨3, ⟨3, 3⟩⟩, ⟨3, 3⟩⟩, false, .Waiting⟩], []⟩)
      = (false, ⟨5, ⟨1, ⟨1, ⟨1, 1⟩⟩, ⟨1, 1⟩⟩, true, .DoneWaiting⟩,
          some ⟨some ⟨2, ⟨2, 2⟩⟩, none,
            [⟨4, ⟨3, ⟨3, ⟨3, 3⟩⟩, ⟨3, 3⟩⟩, false, .Waiting⟩], []⟩) :=
  c3_reader_below_holder_passes 5
    ⟨⟨1, ⟨1, ⟨1, 1⟩⟩, ⟨1, 1⟩⟩, .get⟩
    ⟨some ⟨2, ⟨2, 2⟩⟩, none, [⟨4, ⟨3, ⟨3, ⟨3, 3⟩⟩, ⟨3, 3⟩⟩, false, .Waiting⟩], []⟩
    ⟨2, ⟨2, 2⟩⟩ rfl rfl (by decide)

/-- C4: queued writers are FIFO. A write request against a held lock is
appended at the tail of queued_writers with should_wait true and a Waiting
guard, holder and readers unchanged; and update_locks on a lock with a
nonempty writer queue removes the head writer, installs it as the
reservation in DoneWaiting, keeps every remaining writer queued unchanged
(hence still Waiting) and returns can_gc false. -/
theorem c4_queued_writers_fifo (gid : Nat) (req : Request) (st : LockState)
    (holder : TxnMetadata) (ftxn : Txn) (st2 : LockState)
    (w : LockTableGuard) (rest : List LockTableGuard)
    (hreq : req.kind = .put)
    (hhold : st.lock_holder = some holder)
    (hq : st2.queued_writers = w :: rest) :
    LockTable.scan_and_enqueue gid req (some st)
      = (true, ⟨gid, req.txn, false, .Waiting⟩,
          some { st with queued_writers :=
            st.queued_writers ++ [⟨gid, req.txn, false, .Waiting⟩] })
    ∧ LockTable.update_locks ftxn st2
      = (false,
          { lock_holder := none,
            reservation := some { w with wait_state := WaitingState.DoneWaiting },
            queued_writers := rest, waiting_readers := [] },
          st2.waiting_readers.map
            (fun g => { g with wait_state := WaitingState.DoneWaiting })) := by
  constructor
  · unfold LockTable.scan_and_enqueue
    rw [hreq]
    dsimp only
    rw [hhold]
    dsimp only
    simp
  · unfold LockTable.update_locks
    rw [hq]

/-- C4 witness: the FIFO theorem at a concrete held lock with one already
queued writer, and a concrete update_locks with two queued writers. -/
theorem c4_queued_writers_fifo_witness :
    LockTable.scan_and_enqueue 9
        ⟨⟨1, ⟨1, ⟨1, 2⟩⟩, ⟨1, 2⟩⟩, .put⟩
        (some ⟨some ⟨2, ⟨1, 1⟩⟩, none, [⟨4, ⟨3, ⟨3, ⟨3, 3⟩⟩, ⟨3, 3⟩⟩, false, .Waiting⟩], []⟩)
      = (true, ⟨9, ⟨1, ⟨1, ⟨1, 2⟩⟩, ⟨1, 2⟩⟩, false, .Waiting⟩,
          some ⟨some ⟨2, ⟨1, 1⟩⟩, none,
            [⟨4, ⟨3, ⟨3, ⟨3, 3⟩⟩, ⟨3, 3⟩⟩, false, .Waiting⟩,
              ⟨9, ⟨1, ⟨1, ⟨1, 2⟩⟩, ⟨1, 2⟩⟩, false, .Waiting⟩], []⟩)
    ∧ LockTable.update_locks ⟨2, ⟨2, ⟨1, 1⟩⟩, ⟨1, 1⟩⟩
        ⟨some ⟨2, ⟨1, 1⟩⟩, none,
          [⟨4, ⟨3, ⟨3, ⟨3, 3⟩⟩, ⟨3, 3⟩⟩, false, .Waiting⟩,
            ⟨9, ⟨1, ⟨1, ⟨1, 2⟩⟩, ⟨1, 2⟩⟩, false, .Waiting⟩], []⟩
      = (false,
          { lock_holder := none,
            reservation := some ⟨4, ⟨3, ⟨3, ⟨3, 3⟩⟩, ⟨3, 3⟩⟩, false, .DoneWaiting⟩,
            queued_writers := [⟨9, ⟨1, ⟨1, ⟨1, 2⟩⟩, ⟨1, 2⟩⟩, false, .Waiting⟩],
            waiting_readers := [] },
          []) :=
  c4_queued_writers_fifo 9
    ⟨⟨1, ⟨1, ⟨1, 2⟩⟩, ⟨1, 2⟩⟩, .put⟩
    ⟨some ⟨2, ⟨1, 1⟩⟩, none, [⟨4, ⟨3, ⟨3, ⟨3, 3⟩⟩, ⟨3, 3⟩⟩, false, .Waiting⟩], []⟩
    ⟨2, ⟨1, 1⟩⟩
    ⟨2, ⟨2, ⟨1, 1⟩⟩, ⟨1, 1⟩⟩
    ⟨some ⟨2, ⟨1, 1⟩⟩, none,
      [⟨4, ⟨3, ⟨3, ⟨3, 3⟩⟩, ⟨3, 3⟩⟩, false, .Waiting⟩,
        ⟨9, ⟨1, ⟨1, ⟨1, 2⟩⟩, ⟨1, 2⟩⟩, false, .Waiting⟩], []⟩
    ⟨4, ⟨3, ⟨3, ⟨3, 3⟩⟩, ⟨3, 3⟩⟩, false, .Waiting⟩
    [⟨9, ⟨1, ⟨1, ⟨1, 2⟩⟩, ⟨1, 2⟩⟩, false, .Waiting⟩]
    rfl rfl rfl

/-- C5: update_locks wakes every waiting reader to DoneWaiting, and
whenever it returns can_gc true the resulting lock state has no queued
writers, no waiting readers and no holder. -/
theorem c5_update_locks_wake_and_gc (ftxn : Txn) (st : LockState) :
    ((LockTable.update_locks ftxn st).2.2
        = st.waiting_readers.map
          (fun g => { g with wait_state := WaitingState.DoneWaiting })
      ∧ ∀ g ∈ (LockTable.update_locks ftxn st).2.2,
          g.wait_state = WaitingState.DoneWaiting)
    ∧ ((LockTable.update_locks ftxn st).1 = true →
        (LockTable.update_locks ftxn st).2.1.queued_writers = []
        ∧ (LockTable.update_locks ftxn st).2.1.waiting_readers = []
        ∧ (LockTable.update_locks ftxn st).2.1.lock_holder = none) := by
  unfold LockTable.update_locks
  cases hq : st.queued_writers with
  | nil =>
      refine ⟨⟨rfl, ?_⟩, fun _ => ⟨rfl, rfl, rfl⟩⟩
      intro g hg
      obtain ⟨g0, _, hg0⟩ := List.mem_map.mp hg
      rw [← hg0]
  | cons w rest =>
      refine ⟨⟨rfl, ?_⟩, ?_⟩
      · intro g hg
        obtain ⟨g0, _, hg0⟩ := List.mem_map.mp hg
        rw [← hg0]
      · intro hgc
        cases hgc

/-- C5 witness: the wake-and-gc theorem at a concrete lock held with two
waiting readers and no queued writer, where can_gc is true. -/
theorem c5_update_locks_wake_and_gc_witness :
    ((LockTable.update_locks ⟨2, ⟨2, ⟨12, 12⟩⟩, ⟨12, 12⟩⟩
          ⟨some ⟨2, ⟨12, 12⟩⟩, none, [],
            [⟨7, ⟨5, ⟨5, ⟨15, 15⟩⟩, ⟨15, 15⟩⟩, true, .Waiting⟩,
              ⟨8, ⟨6, ⟨6, ⟨15, 15⟩⟩, ⟨15, 15⟩⟩, true, .Waiting⟩]⟩).2.2
        = ([⟨7, ⟨5, ⟨5, ⟨15, 15⟩⟩, ⟨15, 15⟩⟩, true, .Waiting⟩,
            ⟨8, ⟨6, ⟨6, ⟨15, 15⟩⟩, ⟨15, 15⟩⟩, true, .Waiting⟩] :
              List LockTableGuard).map
          (fun g => { g with wait_state := WaitingState.DoneWaiting })
      ∧ ∀ g ∈ (LockTable.update_locks ⟨2, ⟨2, ⟨12, 12⟩⟩, ⟨12, 12⟩⟩
          ⟨some ⟨2, ⟨12, 12⟩⟩, none, [],
            [⟨7, ⟨5, ⟨5, ⟨15, 15⟩⟩, ⟨15, 15⟩⟩, true, .Waiting⟩,
              ⟨8, ⟨6, ⟨6, ⟨15, 15⟩⟩, ⟨15, 15⟩⟩, true, .Waiting⟩]⟩).2.2,
          g.wait_state = WaitingState.DoneWaiting)
    ∧ ((LockTable.update_locks ⟨2, ⟨2, ⟨12, 12⟩⟩, ⟨12, 12⟩⟩
          ⟨some ⟨2, ⟨12, 12⟩⟩, none, [],
            [⟨7, ⟨5, ⟨5, ⟨15, 15⟩⟩, ⟨15, 15⟩⟩, true, .Waiting⟩,
              ⟨8, ⟨6, ⟨6, ⟨15, 15⟩⟩, ⟨15, 15⟩⟩, true, .Waiting⟩]⟩).1 = true →
        (LockTable.update_locks ⟨2, ⟨2, ⟨12, 12⟩⟩, ⟨12, 12⟩⟩
          ⟨some ⟨2, ⟨12, 12⟩⟩, none, [],
            [⟨7, ⟨5, ⟨5, ⟨15, 15⟩⟩, ⟨15, 15⟩⟩, true, .Waiting⟩,
              ⟨8, ⟨6, ⟨6, ⟨15, 15⟩⟩, ⟨15, 15⟩⟩, true, .Waiting⟩]⟩).2.1.queued_writers = []
        ∧ (LockTable.update_locks ⟨2, ⟨2, ⟨12, 12⟩⟩, ⟨12, 12⟩⟩
          ⟨some ⟨2, ⟨12, 12⟩⟩, none, [],
            [⟨7, ⟨5, ⟨5, ⟨15, 15⟩⟩, ⟨15, 15⟩⟩, true, .Waiting⟩,
              ⟨8, ⟨6, ⟨6, ⟨15, 15⟩⟩, ⟨15, 15⟩⟩, true, .Waiting⟩]⟩).2.1.waiting_readers = []
        ∧ (LockTable.update_locks ⟨2, ⟨2, ⟨12, 12⟩⟩, ⟨12, 12⟩⟩
          ⟨some ⟨2, ⟨12, 12⟩⟩, none, [],
            [⟨7, ⟨5, ⟨5, ⟨15, 15⟩⟩, ⟨15, 15⟩⟩, true, .Waiting⟩,
              ⟨8, ⟨6, ⟨6, ⟨15, 15⟩⟩, ⟨15, 15⟩⟩, true, .Waiting⟩]⟩).2.1.lock_holder = none) :=
  c5_update_locks_wake_and_gc ⟨2, ⟨2, ⟨12, 12⟩⟩, ⟨12, 12⟩⟩
    ⟨some ⟨2, ⟨12, 12⟩⟩, none, [],
      [⟨7, ⟨5, ⟨5, ⟨15, 15⟩⟩, ⟨15, 15⟩⟩, true, .Waiting⟩,
        ⟨8, ⟨6, ⟨6, ⟨15, 15⟩⟩, ⟨15, 15⟩⟩, true, .Waiting⟩]⟩


/-- MVCC state the executor writes through: committed versions and pending
intents. Modelled from the spec: executor.rs is not under src/
(spec section 4.4). -/
structure ExecState where
  versions : List (Key × Timestamp × Value)
  intents : List (Key × Value × TxnMetadata)
deriving DecidableEq, Repr

/-- Timestamp of the latest committed version of a key, if any. -/
def latest_committed_ts (versions : List (Key × Timestamp × Value)) (k : Key) :
    Option Timestamp :=
  versions.foldl
    (fun acc e =>
      if e.1 = k then
        match acc with
        | none => some e.2.1
        | some t => some (if tsLtB t e.2.1 then e.2.1 else t)
      else acc)
    none

/-- Modelled from the spec: the executor Put path (spec section 4.4): write
an intent for the key; if the key already has a committed version with a
timestamp above the transaction write timestamp, first bump the
transaction write timestamp to next_logical of that timestamp. -/
def executePut (k : Key) (v : Value) (txn : Txn) (st : ExecState) :
    Txn × ExecState :=
  let txn2 :=
    match latest_committed_ts st.versions k with
    | some te =>
        if tsLtB txn.metadata.write_timestamp te then
          { txn with metadata :=
              { txn.metadata with write_timestamp := te.next_logical_timestamp } }
        else txn
    | none => txn
  (txn2, { st with intents := st.intents ++ [(k, v, txn2.metadata)] })

/-- Result of CommitTxn (spec section 7). -/
inductive CommitTxnResult where
  | Success : Timestamp → CommitTxnResult
  | Fail : CommitTxnResult
deriving DecidableEq, Repr

/-- Modelled from the spec: the executor CommitTxn path (spec section 4.4):
the record turns COMMITTED at the transaction write timestamp, each intent
of the transaction is rewritten as a committed version at that timestamp
and removed, and the commit timestamp is returned. Per spec section 9 the
source does not re-validate reads at commit, so the commit succeeds. -/
def executeCommit (txn : Txn) (st : ExecState) : CommitTxnResult × ExecState :=
  let wts := txn.metadata.write_timestamp
  (CommitTxnResult.Success wts,
    { versions := st.versions ++
        (st.intents.filter (fun e => decide (e.2.2.txn_id = txn.txn_id))).map
          (fun e => (e.1, wts, e.2.1)),
      intents := st.intents.filter (fun e => !(decide (e.2.2.txn_id = txn.txn_id))) })

/-- C2: when a transaction writes a key whose latest committed version has
a timestamp above the transaction write timestamp, the put bumps the write
timestamp to next_logical of that timestamp and a subsequent commit
succeeds with exactly that commit timestamp. -/
theorem c2_write_too_old_bump (k : Key) (v : Value) (txn : Txn)
    (st : ExecState) (te : Timestamp)
    (hlatest : latest_committed_ts st.versions k = some te)
    (hlt : tsLtB txn.metadata.write_timestamp te = true) :
    ((executePut k v txn st).1).metadata.write_timestamp = te.next_logical_timestamp
    ∧ (executeCommit (executePut k v txn st).1 (executePut k v txn st).2).1
        = CommitTxnResult.Success te.next_logical_timestamp := by
  unfold executePut
  rw [hlatest]
  dsimp only
  rw [if_pos hlt]
  exact ⟨rfl, rfl⟩

/-- C2 witness: the bump theorem in the S3 scenario: a txn begun at time 10
writes key [0] already committed by another txn at HLC (12,12); its write
timestamp is bumped to (12,13) and its commit succeeds at (12,13). -/
theorem c2_write_too_old_bump_witness :
    ((executePut [0] [15] ⟨1, ⟨1, ⟨10, 10⟩⟩, ⟨10, 10⟩⟩
        ⟨[([0], ⟨12, 12⟩, [12])], []⟩).1).metadata.write_timestamp
      = Timestamp.next_logical_timestamp ⟨12, 12⟩
    ∧ (executeCommit
        (executePut [0] [15] ⟨1, ⟨1, ⟨10, 10⟩⟩, ⟨10, 10⟩⟩
          ⟨[([0], ⟨12, 12⟩, [12])], []⟩).1
        (executePut [0] [15] ⟨1, ⟨1, ⟨10, 10⟩⟩, ⟨10, 10⟩⟩
          ⟨[([0], ⟨12, 12⟩, [12])], []⟩).2).1
      = CommitTxnResult.Success (Timestamp.next_logical_timestamp ⟨12, 12⟩) :=
  c2_write_too_old_bump [0] [15] ⟨1, ⟨1, ⟨10, 10⟩⟩, ⟨10, 10⟩⟩
    ⟨[([0], ⟨12, 12⟩, [12])], []⟩ ⟨12, 12⟩ (by decide) (by decide)

/-- The facade clock of src/db/db.rs: a plain u64 value. -/
structure DBTimestamp where
  value : Nat
deriving DecidableEq, Repr

/-- Mirrors Timestamp::to_hlc_timestamp of src/db/db.rs: both HLC
components are the clock value. -/
def DBTimestamp.to_hlc_timestamp (t : DBTimestamp) : Timestamp :=
  ⟨t.value, t.value⟩

/-- The facade state of src/db/db.rs: the manual clock and the transaction
registry. -/
structure DBState where
  current_time : DBTimestamp
  txns : List (Nat × Txn)
deriving DecidableEq, Repr

/-- Mirrors DB::new of src/db/db.rs: the clock starts at value 10 and the
registry is empty. -/
def DBState.new : DBState :=
  ⟨⟨10⟩, []⟩

/-- Mirrors DB::now of src/db/db.rs. -/
def DBState.now (s : DBState) : DBTimestamp :=
  s.current_time

/-- Facade operations observable on the clock: set_time and begin_txn
(src/db/db.rs; the fresh UUID is modelled as a caller-chosen id). -/
inductive DBOp where
  | set_time : Nat → DBOp
  | begin_txn : Nat → DBOp
deriving DecidableEq, Repr

/-- Mirrors DB::set_time and DB::begin_txn of src/db/db.rs: set_time
overwrites the clock with exactly the given value; begin_txn stamps the
new transaction with now() (read and write timestamps both from
to_hlc_timestamp of the current clock) and registers it. -/
def db_step (s : DBState) : DBOp → DBState
  | .set_time v => { s with current_time := ⟨v⟩ }
  | .begin_txn id =>
      { s with txns := (id,
          ⟨id, ⟨id, (s.now).to_hlc_timestamp⟩, (s.now).to_hlc_timestamp⟩) :: s.txns }

/-- A sequence of facade operations. -/
def db_run (s : DBState) (ops : List DBOp) : DBState :=
  ops.foldl db_step s

/-- C9 counterexample: set_time may move the clock backwards, so now() is
not monotonic: from the initial clock value 10 of DB::new, running
set_time(5) makes now() decrease. -/
theorem c9_counterexample :
    (db_run DBState.new [DBOp.set_time 5]).now.value < DBState.new.now.value := by
  decide

/-- C9 (amended): set_time sets the clock to exactly its argument, with no
monotonicity guard, so now() can decrease; begin_txn leaves the clock
unchanged and stamps the new transaction with the value of now() at the
call. -/
theorem c9_clock_behaviour (s : DBState) (v : Nat) (id : Nat) :
    (db_step s (.set_time v)).now.value = v
    ∧ (db_step s (.begin_txn id)).now = s.now
    ∧ (db_step s (.begin_txn id)).txns
        = (id, ⟨id, ⟨id, ⟨s.now.value, s.now.value⟩⟩,
            ⟨s.now.value, s.now.value⟩⟩) :: s.txns :=
  ⟨rfl, rfl, rfl⟩

/-- C6 scenario (spec S1), spec-modelled since executor.rs and
lock_table.rs are not under src/: a writer txn 1 begun at time 10 holds
the intent on key [0] (value bytes [12] standing for the encoding of 12);
a reader txn 2 begun at time 12 has read timestamp (12,12) at or above the
holder write timestamp (10,10), so scan_and_enqueue blocks it:
should_wait is true and its guard waits. Only when txn 1 commits does
update_locks release it: the guard turns DoneWaiting and the lock is
garbage-collectable; the retried request then passes the lock table
without waiting, and the MVCC read at (12,12) over the committed store
returns the committed version (10,10) with value [12], that is Some(12). -/
theorem c6_reader_waits_for_writer_scenario :
    LockTable.scan_and_enqueue 7 ⟨⟨2, ⟨2, ⟨12, 12⟩⟩, ⟨12, 12⟩⟩, .get⟩
        (some ⟨some ⟨1, ⟨10, 10⟩⟩, none, [], []⟩)
      = (true, ⟨7, ⟨2, ⟨2, ⟨12, 12⟩⟩, ⟨12, 12⟩⟩, true, .Waiting⟩,
          some ⟨some ⟨1, ⟨10, 10⟩⟩, none, [],
            [⟨7, ⟨2, ⟨2, ⟨12, 12⟩⟩, ⟨12, 12⟩⟩, true, .Waiting⟩]⟩)
    ∧ LockTable.update_locks ⟨1, ⟨1, ⟨10, 10⟩⟩, ⟨10, 10⟩⟩
        ⟨some ⟨1, ⟨10, 10⟩⟩, none, [],
          [⟨7, ⟨2, ⟨2, ⟨12, 12⟩⟩, ⟨12, 12⟩⟩, true, .Waiting⟩]⟩
      = (true, ⟨none, none, [], []⟩,
          [⟨7, ⟨2, ⟨2, ⟨12, 12⟩⟩, ⟨12, 12⟩⟩, true, .DoneWaiting⟩])
    ∧ LockTable.scan_and_enqueue 8 ⟨⟨2, ⟨2, ⟨12, 12⟩⟩, ⟨12, 12⟩⟩, .get⟩ none
      = (false, ⟨8, ⟨2, ⟨2, ⟨12, 12⟩⟩, ⟨12, 12⟩⟩, true, .DoneWaiting⟩, none)
    ∧ ((MVCCScanner.new
          ⟨[((⟨[0], .version ⟨10, 10⟩⟩ : MVCCKey), StoredValue.raw [12])],
            [((⟨[0], .version ⟨10, 10⟩⟩ : MVCCKey), StoredValue.raw [12])]⟩
          [0] none ⟨12, 12⟩ 1 (some ⟨2, ⟨2, ⟨12, 12⟩⟩, ⟨12, 12⟩⟩)).scan).results
      = [((⟨[0], .version ⟨10, 10⟩⟩ : MVCCKey), [12])] := by
  refine ⟨by decide, by decide, by decide, by rfl⟩


/-- Node of the latch interval B-tree, from
src/latch_manager/latch_interval_btree.rs: a leaf holds the range start
and end keys, an internal node holds keys and one more child edge than
keys. -/
inductive BTNode (K : Type) where
  | leaf : List K → List K → BTNode K
  | internal : List K → List (BTNode K) → BTNode K
deriving Repr

/-- First index whose element is strictly above x, or the length: the
insertion index of LeafNode::insert_range and InternalNode::insert_node,
and the child selection of BTree::find_leaf_to_add (equal keys go right
since the left edge holds keys strictly below the separator). -/
def insertIdx {K : Type} [LinearOrder K] (x : K) : List K → Nat
  | [] => 0
  | k :: rest => if x < k then 0 else insertIdx x rest + 1

/-- Mirrors LeafNode::insert_range: insert the start key at its insertion
index in start_keys, and the end key at the same index in end_keys,
embedded as one simultaneous structural recursion. -/
def insert_range {K : Type} [LinearOrder K] :
    List K → List K → K → K → List K × List K
  | [], eks, s, e => ([s], e :: eks)
  | k :: ks, eks, s, e =>
      if s < k then
        (s :: k :: ks, e :: eks)
      else
        match eks with
        | [] =>
            let p := insert_range ks [] s e
            (k :: p.1, p.2)
        | e0 :: es =>
            let p := insert_range ks es s e
            (k :: p.1, e0 :: p.2)

/-- Mirrors InternalNode::insert_node: insert the pushed-up key at its
insertion index and the new right node one position later among the
edges. -/
def insNode {K : Type} [LinearOrder K] :
    List K → List (BTNode K) → K → BTNode K → List K × List (BTNode K)
  | [], es, m, n =>
      ([m],
        match es with
        | [] => [n]
        | e0 :: rest => e0 :: n :: rest)
  | k :: ks, es, m, n =>
      if m < k then
        (m :: k :: ks,
          match es with
          | [] => [n]
          | e0 :: rest => e0 :: n :: rest)
      else
        match es with
        | [] =>
            let p := insNode ks [] m n
            (k :: p.1, p.2)
        | e0 :: rest =>
            let p := insNode ks rest m n
            (k :: p.1, e0 :: p.2)

/-- Result of inserting into a node: the node fit, or it split into a left
node, a pushed-up median and a right node. -/
inductive InsRes (K : Type) where
  | ok : BTNode K → InsRes K
  | split : BTNode K → K → BTNode K → InsRes K
deriving Repr

/-- Mirrors the leaf branch of BTree::split_node: move the upper half of
the keys to a fresh right leaf whose smallest start key is pushed up. -/
def splitLeaf {K : Type} (sks eks : List K) : InsRes K :=
  let mid := sks.length / 2
  match sks.drop mid with
  | [] => .ok (.leaf sks eks)
  | m :: _ =>
      .split (.leaf (sks.take mid) (eks.take mid)) m
        (.leaf (sks.drop mid) (eks.drop mid))

/-- Mirrors the internal branch of BTree::split_node: the key at the
middle index is pushed up, the keys below it stay left with their edges,
the keys above it move right with theirs. -/
def splitInternal {K : Type} (keys : List K) (edges : List (BTNode K)) : InsRes K :=
  let mid := keys.length / 2
  match keys.drop mid with
  | [] => .ok (.internal keys edges)
  | m :: restKeys =>
      .split (.internal (keys.take mid) (edges.take (mid + 1))) m
        (.internal restKeys (edges.drop (mid + 1)))

/-- Mirrors BTree::insert below the root: descend along
find_leaf_to_add's child choice to the leaf, insert_range there, and
split back up while a node has reached its order (has_capacity is
length < order), exactly as the parent-stack loop of the source does. -/
def nodeInsert {K : Type} [LinearOrder K] (order : Nat) (s e : K) :
    BTNode K → InsRes K
  | .leaf sks eks =>
      let p := insert_range sks eks s e
      if p.1.length < order then .ok (.leaf p.1 p.2)
      else splitLeaf p.1 p.2
  | .internal keys edges =>
      let i := insertIdx s keys
      match hg : edges.get? i with
      | none => .ok (.internal keys edges)
      | some c =>
          match nodeInsert order s e c with
          | .ok c2 => .ok (.internal keys (edges.set i c2))
          | .split l m r =>
              let p := insNode keys (edges.set i l) m r
              if p.1.length < order then .ok (.internal p.1 p.2)
              else splitInternal p.1 p.2
termination_by n => sizeOf n
decreasing_by
  rename_i keys2 edges2
  have hmem : c ∈ edges2 := List.get?_mem hg
  have h1 : sizeOf c < sizeOf edges2 := List.sizeOf_lt_of_mem hmem
  simp only [BTNode.internal.sizeOf_spec]
  omega

/-- Mirrors BTree::insert at the root: when the root splits, a new root
with the median key and the two halves as children is created. -/
def btreeInsert {K : Type} [LinearOrder K] (order : Nat) (s e : K)
    (root : BTNode K) : BTNode K :=
  match nodeInsert order s e root with
  | .ok n => n
  | .split l m r => .internal [m] [l, r]

/-- Mirrors BTree::new: the tree starts as one empty leaf. -/
def btreeNew (K : Type) : BTNode K :=
  .leaf [] []

/-- The per-node ordering invariant of the claim: leaf start keys ascend
(non-strictly: repeated equal ranges stay adjacent) with end keys of equal
length, internal keys ascend with exactly one more edge than keys, and
the invariant holds in every child. -/
inductive WFNode {K : Type} [LinearOrder K] : BTNode K → Prop where
  | leaf : ∀ {sks eks : List K},
      sks.Pairwise (· ≤ ·) → eks.length = sks.length → WFNode (.leaf sks eks)
  | internal : ∀ {keys : List K} {edges : List (BTNode K)},
      keys.Pairwise (· ≤ ·) → edges.length = keys.length + 1 →
      (∀ c ∈ edges, WFNode c) → WFNode (.internal keys edges)

/-- The invariant carried through an insertion step: an ok node is
well-formed, a split yields two well-formed halves. -/
def resWF {K : Type} [LinearOrder K] : InsRes K → Prop
  | .ok n => WFNode n
  | .split l _ r => WFNode l ∧ WFNode r


theorem insert_range_fst_mem {K : Type} [LinearOrder K] (s e : K) :
    ∀ (sks eks : List K), ∀ y ∈ (insert_range sks eks s e).1, y = s ∨ y ∈ sks := by
  intro sks
  induction sks with
  | nil =>
      intro eks y hy
      simp only [insert_range, List.mem_singleton] at hy
      exact Or.inl hy
  | cons k ks ih =>
      intro eks y hy
      by_cases hs : s < k
      · simp only [insert_range, if_pos hs] at hy
        rcases List.mem_cons.mp hy with rfl | hy2
        · exact Or.inl rfl
        · exact Or.inr hy2
      · cases eks with
        | nil =>
            simp only [insert_range, if_neg hs] at hy
            rcases List.mem_cons.mp hy with rfl | hy2
            · exact Or.inr (List.mem_cons_self _ _)
            · rcases ih [] y hy2 with h | h
              · exact Or.inl h
              · exact Or.inr (List.mem_cons_of_mem _ h)
        | cons e0 es =>
            simp only [insert_range, if_neg hs] at hy
            rcases List.mem_cons.mp hy with rfl | hy2
            · exact Or.inr (List.mem_cons_self _ _)
            · rcases ih es y hy2 with h | h
              · exact Or.inl h
              · exact Or.inr (List.mem_cons_of_mem _ h)

theorem insert_range_fst_sorted {K : Type} [LinearOrder K] (s e : K) :
    ∀ (sks eks : List K), sks.Pairwise (· ≤ ·) →
      (insert_range sks eks s e).1.Pairwise (· ≤ ·) := by
  intro sks
  induction sks with
  | nil =>
      intro eks _
      simp [insert_range]
  | cons k ks ih =>
      intro eks hsort
      obtain ⟨hk, hks⟩ := List.pairwise_cons.mp hsort
      by_cases hs : s < k
      · simp only [insert_range, if_pos hs]
        refine List.pairwise_cons.mpr ⟨?_, hsort⟩
        intro y hy
        rcases List.mem_cons.mp hy with rfl | hy2
        · exact le_of_lt hs
        · exact le_of_lt (lt_of_lt_of_le hs (hk y hy2))
      · have hks2 : k ≤ s := le_of_not_lt hs
        cases eks with
        | nil =>
            simp only [insert_range, if_neg hs]
            refine List.pairwise_cons.mpr ⟨?_, ih [] hks⟩
            intro y hy
            rcases insert_range_fst_mem s e ks [] y hy with rfl | h
            · exact hks2
            · exact hk y h
        | cons e0 es =>
            simp only [insert_range, if_neg hs]
            refine List.pairwise_cons.mpr ⟨?_, ih es hks⟩
            intro y hy
            rcases insert_range_fst_mem s e ks es y hy with rfl | h
            · exact hks2
            · exact hk y h

theorem insert_range_lengths {K : Type} [LinearOrder K] (s e : K) :
    ∀ (sks eks : List K), eks.length = sks.length →
      (insert_range sks eks s e).1.length = sks.length + 1 ∧
      (insert_range sks eks s e).2.length = (insert_range sks eks s e).1.length := by
  intro sks
  induction sks with
  | nil =>
      intro eks hlen
      have : eks = [] := List.length_eq_zero.mp hlen
      subst this
      simp [insert_range]
  | cons k ks ih =>
      intro eks hlen
      by_cases hs : s < k
      · simp only [insert_range, if_pos hs]
        simp only [List.length_cons, List.length_nil] at hlen ⊢
        exact ⟨trivial, by omega⟩
      · cases eks with
        | nil => simp at hlen
        | cons e0 es =>
            simp only [List.length_cons] at hlen
            have hih := ih es (by omega)
            simp only [insert_range, if_neg hs, List.length_cons]
            omega

theorem insNode_fst_mem {K : Type} [LinearOrder K] (m : K) (n : BTNode K) :
    ∀ (keys : List K) (es : List (BTNode K)),
      ∀ y ∈ (insNode keys es m n).1, y = m ∨ y ∈ keys := by
  intro keys
  induction keys with
  | nil =>
      intro es y hy
      simp only [insNode, List.mem_singleton] at hy
      exact Or.inl hy
  | cons k ks ih =>
      intro es y hy
      by_cases hm : m < k
      · simp only [insNode, if_pos hm] at hy
        rcases List.mem_cons.mp hy with rfl | hy2
        · exact Or.inl rfl
        · exact Or.inr hy2
      · cases es with
        | nil =>
            simp only [insNode, if_neg hm] at hy
            rcases List.mem_cons.mp hy with rfl | hy2
            · exact Or.inr (List.mem_cons_self _ _)
            · rcases ih [] y hy2 with h | h
              · exact Or.inl h
              · exact Or.inr (List.mem_cons_of_mem _ h)
        | cons e0 rest =>
            simp only [insNode, if_neg hm] at hy
            rcases List.mem_cons.mp hy with rfl | hy2
            · exact Or.inr (List.mem_cons_self _ _)
            · rcases ih rest y hy2 with h | h
              · exact Or.inl h
              · exact Or.inr (List.mem_cons_of_mem _ h)

theorem insNode_fst_sorted {K : Type} [LinearOrder K] (m : K) (n : BTNode K) :
    ∀ (keys : List K) (es : List (BTNode K)), keys.Pairwise (· ≤ ·) →
      (insNode keys es m n).1.Pairwise (· ≤ ·) := by
  intro keys
  induction keys with
  | nil =>
      intro es _
      simp [insNode]
  | cons k ks ih =>
      intro es hsort
      obtain ⟨hk, hks⟩ := List.pairwise_cons.mp hsort
      by_cases hm : m < k
      · simp only [insNode, if_pos hm]
        refine List.pairwise_cons.mpr ⟨?_, hsort⟩
        intro y hy
        rcases List.mem_cons.mp hy with rfl | hy2
        · exact le_of_lt hm
        · exact le_of_lt (lt_of_lt_of_le hm (hk y hy2))
      · have hkm : k ≤ m := le_of_not_lt hm
        cases es with
        | nil =>
            simp only [insNode, if_neg hm]
            refine List.pairwise_cons.mpr ⟨?_, ih [] hks⟩
            intro y hy
            rcases insNode_fst_mem m n ks [] y hy with rfl | h
            · exact hkm
            · exact hk y h
        | cons e0 rest =>
            simp only [insNode, if_neg hm]
            refine List.pairwise_cons.mpr ⟨?_, ih rest hks⟩
            intro y hy
            rcases insNode_fst_mem m n ks rest y hy with rfl | h
            · exact hkm
            · exact hk y h

theorem insNode_snd_mem {K : Type} [LinearOrder K] (m : K) (n : BTNode K) :
    ∀ (keys : List K) (es : List (BTNode K)),
      ∀ y ∈ (insNode keys es m n).2, y = n ∨ y ∈ es := by
  intro keys
  induction keys with
  | nil =>
      intro es y hy
      cases es with
      | nil =>
          simp only [insNode, List.mem_singleton] at hy
          exact Or.inl hy
      | cons e0 rest =>
          simp only [insNode] at hy
          rcases List.mem_cons.mp hy with rfl | hy2
          · exact Or.inr (List.mem_cons_self _ _)
          · rcases List.mem_cons.mp hy2 with rfl | hy3
            · exact Or.inl rfl
            · exact Or.inr (List.mem_cons_of_mem _ hy3)
  | cons k ks ih =>
      intro es y hy
      by_cases hm : m < k
      · cases es with
        | nil =>
            simp only [insNode, if_pos hm, List.mem_singleton] at hy
            exact Or.inl hy
        | cons e0 rest =>
            simp only [insNode, if_pos hm] at hy
            rcases List.mem_cons.mp hy with rfl | hy2
            · exact Or.inr (List.mem_cons_self _ _)
            · rcases List.mem_cons.mp hy2 with rfl | hy3
              · exact Or.inl rfl
              · exact Or.inr (List.mem_cons_of_mem _ hy3)
      · cases es with
        | nil =>
            simp only [insNode, if_neg hm] at hy
            rcases ih [] y hy with h | h
            · exact Or.inl h
            · exact Or.inr h
        | cons e0 rest =>
            simp only [insNode, if_neg hm] at hy
            rcases List.mem_cons.mp hy with rfl | hy2
            · exact Or.inr (List.mem_cons_self _ _)
            · rcases ih rest y hy2 with h | h
              · exact Or.inl h
              · exact Or.inr (List.mem_cons_of_mem _ h)

theorem insNode_lengths {K : Type} [LinearOrder K] (m : K) (n : BTNode K) :
    ∀ (keys : List K) (es : List (BTNode K)), es.length = keys.length + 1 →
      (insNode keys es m n).1.length = keys.length + 1 ∧
      (insNode keys es m n).2.length = (insNode keys es m n).1.length + 1 := by
  intro keys
  induction keys with
  | nil =>
      intro es hlen
      cases es with
      | nil => simp at hlen
      | cons e0 rest =>
          simp only [List.length_cons, List.length_nil] at hlen
          have : rest = [] := List.length_eq_zero.mp (by omega)
          subst this
          simp [insNode]
  | cons k ks ih =>
      intro es hlen
      by_cases hm : m < k
      · cases es with
        | nil => simp at hlen
        | cons e0 rest =>
            simp only [insNode, if_pos hm]
            simp only [List.length_cons, List.length_nil] at hlen ⊢
            exact ⟨trivial, by omega⟩
      · cases es with
        | nil => simp at hlen
        | cons e0 rest =>
            simp only [List.length_cons] at hlen
            have hih := ih rest (by omega)
            simp only [insNode, if_neg hm, List.length_cons]
            omega


theorem splitLeaf_wf {K : Type} [LinearOrder K] (sks eks : List K)
    (hsort : sks.Pairwise (· ≤ ·)) (hlen : eks.length = sks.length) :
    resWF (splitLeaf sks eks) := by
  unfold splitLeaf
  dsimp only
  split
  · exact WFNode.leaf hsort hlen
  · show WFNode _ ∧ WFNode _
    refine ⟨WFNode.leaf ?_ ?_, WFNode.leaf ?_ ?_⟩
    · exact hsort.sublist (List.take_sublist _ _)
    · simp [List.length_take, hlen]
    · exact hsort.sublist (List.drop_sublist _ _)
    · simp [List.length_drop, hlen]

theorem splitInternal_wf {K : Type} [LinearOrder K] (keys : List K)
    (edges : List (BTNode K)) (hsort : keys.Pairwise (· ≤ ·))
    (hlen : edges.length = keys.length + 1) (hch : ∀ c ∈ edges, WFNode c) :
    resWF (splitInternal keys edges) := by
  unfold splitInternal
  dsimp only
  split
  · exact WFNode.internal hsort hlen hch
  · rename_i m rest hd
    have hmid : keys.length / 2 < keys.length := by
      by_contra hge
      rw [List.drop_eq_nil_of_le (le_of_not_lt hge)] at hd
      exact List.noConfusion hd
    have hrest : rest.length = keys.length - (keys.length / 2) - 1 := by
      have := congrArg List.length hd
      simp only [List.length_drop, List.length_cons] at this
      omega
    have hrestdrop : rest = keys.drop (keys.length / 2 + 1) := by
      have : (keys.drop (keys.length / 2)).tail = keys.drop (keys.length / 2 + 1) := by
        rw [List.tail_drop]
      rw [hd] at this
      exact this
    show WFNode _ ∧ WFNode _
    refine ⟨WFNode.internal ?_ ?_ ?_, WFNode.internal ?_ ?_ ?_⟩
    · exact hsort.sublist (List.take_sublist _ _)
    · simp only [List.length_take, List.length_take]
      omega
    · intro c hc
      exact hch c ((List.take_sublist _ _).mem hc)
    · rw [hrestdrop]
      exact hsort.sublist (List.drop_sublist _ _)
    · simp only [List.length_drop]
      omega
    · intro c hc
      exact hch c ((List.drop_sublist _ _).mem hc)

theorem nodeInsert_wf_aux {K : Type} [LinearOrder K] (order : Nat) (s e : K) :
    ∀ (N : Nat) (t : BTNode K), sizeOf t ≤ N → WFNode t →
      resWF (nodeInsert order s e t) := by
  intro N
  induction N with
  | zero =>
      intro t hsz _
      exfalso
      cases t with
      | leaf sks eks =>
          simp only [BTNode.leaf.sizeOf_spec] at hsz
          omega
      | internal keys edges =>
          simp only [BTNode.internal.sizeOf_spec] at hsz
          omega
  | succ N ih =>
      intro t hsz hwf
      cases t with
      | leaf sks eks =>
          cases hwf with
          | leaf hsort hlen =>
              rw [nodeInsert]
              have hps := insert_range_fst_sorted s e sks eks hsort
              have hpl := insert_range_lengths s e sks eks hlen
              split
              · exact WFNode.leaf hps hpl.2
              · exact splitLeaf_wf _ _ hps hpl.2
      | internal keys edges =>
          cases hwf with
          | internal hsort hlen hch =>
              rw [nodeInsert]
              dsimp only
              split
              · exact WFNode.internal hsort hlen hch
              · rename_i c hg
                have hcmem : c ∈ edges := List.get?_mem hg
                have hcsz : sizeOf c ≤ N := by
                  have h1 : sizeOf c < sizeOf edges := List.sizeOf_lt_of_mem hcmem
                  simp only [BTNode.internal.sizeOf_spec] at hsz
                  omega
                have hcres := ih c hcsz (hch c hcmem)
                split
                · rename_i c2 hok
                  rw [hok] at hcres
                  refine WFNode.internal hsort ?_ ?_
                  · rw [List.length_set]
                    exact hlen
                  · intro x hx
                    rcases List.mem_or_eq_of_mem_set hx with h | rfl
                    · exact hch x h
                    · exact hcres
                · rename_i l m r hsp
                  rw [hsp] at hcres
                  have hsetlen : (edges.set (insertIdx s keys) l).length = keys.length + 1 := by
                    rw [List.length_set]
                    exact hlen
                  have hsetch : ∀ x ∈ edges.set (insertIdx s keys) l, WFNode x := by
                    intro x hx
                    rcases List.mem_or_eq_of_mem_set hx with h | rfl
                    · exact hch x h
                    · exact hcres.1
                  have hins := insNode_fst_sorted m r keys (edges.set (insertIdx s keys) l) hsort
                  have hinl := insNode_lengths m r keys (edges.set (insertIdx s keys) l) hsetlen
                  have hinch : ∀ x ∈ (insNode keys (edges.set (insertIdx s keys) l) m r).2,
                      WFNode x := by
                    intro x hx
                    rcases insNode_snd_mem m r keys (edges.set (insertIdx s keys) l) x hx
                      with rfl | h
                    · exact hcres.2
                    · exact hsetch x h
                  split
                  · refine WFNode.internal hins ?_ hinch
                    omega
                  · exact splitInternal_wf _ _ hins (by omega) hinch

theorem nodeInsert_wf {K : Type} [LinearOrder K] (order : Nat) (s e : K)
    (t : BTNode K) (hwf : WFNode t) : resWF (nodeInsert order s e t) :=
  nodeInsert_wf_aux order s e (sizeOf t) t le_rfl hwf

theorem btreeInsert_wf {K : Type} [LinearOrder K] (order : Nat) (s e : K)
    (t : BTNode K) (hwf : WFNode t) : WFNode (btreeInsert order s e t) := by
  have hres := nodeInsert_wf order s e t hwf
  unfold btreeInsert
  cases hr : nodeInsert order s e t with
  | ok n =>
      rw [hr] at hres
      exact hres
  | split l m r =>
      rw [hr] at hres
      refine WFNode.internal ?_ ?_ ?_
      · exact List.pairwise_singleton _ _
      · rfl
      · intro c hc
        rcases List.mem_cons.mp hc with rfl | hc2
        · exact hres.1
        · rcases List.mem_singleton.mp hc2 with rfl
          exact hres.2

theorem btreeNew_wf (K : Type) [LinearOrder K] : WFNode (btreeNew K) :=
  WFNode.leaf List.Pairwise.nil rfl


/-- C10: starting from BTree::new, every sequence of BTree::insert calls
preserves the B-tree ordering invariant: within every leaf the start keys
are in ascending order with end keys of equal length, and within every
internal node the keys are in ascending order with exactly one more edge
than keys, recursively in every child. -/
theorem c10_btree_insert_preserves_order (order : Nat) (rs : List (Int × Int)) :
    WFNode (rs.foldl (fun t r => btreeInsert order r.1 r.2 t) (btreeNew Int)) := by
  have main : ∀ (l : List (Int × Int)) (t : BTNode Int), WFNode t →
      WFNode (l.foldl (fun t r => btreeInsert order r.1 r.2 t) t) := by
    intro l
    induction l with
    | nil =>
        intro t h
        exact h
    | cons r rest ih =>
        intro t h
        exact ih _ (btreeInsert_wf order r.1 r.2 t h)
  exact main rs _ (btreeNew_wf Int)

end KVDB
